import Mathlib

/-!
# base_n: radix conversion between raw bytes and base-N text

A shallow embedding of `golang/base_n/base_n.go`.

* A Go `[]byte` and a Go `string` are lists of byte values (`List Nat`, each element below 256).
* A function that writes into a slice it was handed returns the final contents of that slice
  next to its result, so that the effect on the caller's buffer can be stated.
* A run-time panic is an `Except.error` carrying a `Panic`.
* The package variable `alphabet_cache` is an argument of the functions that read it, and
  `GetAlphabet.cacheAfter` gives its contents after a call.
* `int` values are unbounded: `divmod` works on numbers below `from_base * to_base`, and
  the product in `approximateSize` stays far below `2^63` for any slice that fits in memory.
* `sha256.Sum256` (package `crypto/sha256`) is a parameter `Sum256` of the checksummed
  operations; `math.Log` (package `math`) enters through the value table of `logInt`.
-/

namespace BaseN

/-! ## The program -/

/-- The run-time panics the code can raise. -/
inductive Panic where
  /-- An index expression `s[i]` with `i` outside `0 ≤ i < len(s)`. -/
  | indexOutOfRange
  /-- A slice expression `s[a:]` or `s[:b]` with a bound outside the slice. -/
  | sliceBounds
  /-- Integer division by zero, for `int` and for `big.Int`. -/
  | divideByZero
  /-- The allocation `make([]byte, n)` with `n < 0`. -/
  | makeLen
  deriving DecidableEq, Repr

/-- The errors built with `fmt.Errorf`. -/
inductive CodecError where
  /-- `"Non ASCII character %#x in alphabet at:%d"` with the byte and its position. -/
  | nonAscii (value index : Nat)
  /-- `"Checksum does not match"`. -/
  | checksum
  deriving DecidableEq, Repr

deriving instance DecidableEq for Except

/-- The byte values of a string literal of ASCII characters. -/
def asciiBytes (s : String) : List Nat := s.toList.map Char.toNat

/-- The registry `Alphabets`, a map from base to alphabet string. -/
def Alphabets : List (Int × String) :=
  [ (2, "01"),
    (8, "01234567"),
    (11, "0123456789a"),
    (16, "0123456789abcdef"),
    (32, "0123456789ABCDEFGHJKMNPQRSTVWXYZ"),
    (36, "0123456789abcdefghijklmnopqrstuvwxyz"),
    (58, "123456789ABCDEFGHJKLMNPQRSTUVWXYZabcdefghijkmnopqrstuvwxyz"),
    (62, "0123456789abcdefghijklmnopqrstuvwxyzABCDEFGHIJKLMNOPQRSTUVWXYZ"),
    (64, "ABCDEFGHIJKLMNOPQRSTUVWXYZabcdefghijklmnopqrstuvwxyz0123456789+/"),
    (67, "ABCDEFGHIJKLMNOPQRSTUVWXYZabcdefghijklmnopqrstuvwxyz0123456789-_.!~") ]

/-- The map access `Alphabets[id]`: the empty string for an absent key. -/
def AlphabetsAt (id : Int) : List Nat :=
  match Alphabets.lookup id with
  | some s => asciiBytes s
  | none => []

/-- The ids of the registry. -/
def registryIds : List Int := [2, 8, 11, 16, 32, 36, 58, 62, 64, 67]

structure CodecDirection where
  from_base : Nat
  to_base : Nat
  from_log : Int
  to_log : Int
  deriving DecidableEq, Repr

/-- The values of `int(math.Log(float64(base)) * 10000)` for `base = 1 .. 256`, at position
`base` (position 0 is a placeholder): the integer part of `10000 * ln base`. Each
`10000 * ln base` is more than `0.001` away from an integer, far more than the rounding error
of the floating-point computation. -/
def logIntTable : List Int := [
  0, 0, 6931, 10986, 13862, 16094, 17917, 19459, 20794, 21972, 23025, 23978,
  24849, 25649, 26390, 27080, 27725, 28332, 28903, 29444, 29957, 30445, 30910, 31354,
  31780, 32188, 32580, 32958, 33322, 33672, 34011, 34339, 34657, 34965, 35263, 35553,
  35835, 36109, 36375, 36635, 36888, 37135, 37376, 37612, 37841, 38066, 38286, 38501,
  38712, 38918, 39120, 39318, 39512, 39702, 39889, 40073, 40253, 40430, 40604, 40775,
  40943, 41108, 41271, 41431, 41588, 41743, 41896, 42046, 42195, 42341, 42484, 42626,
  42766, 42904, 43040, 43174, 43307, 43438, 43567, 43694, 43820, 43944, 44067, 44188,
  44308, 44426, 44543, 44659, 44773, 44886, 44998, 45108, 45217, 45325, 45432, 45538,
  45643, 45747, 45849, 45951, 46051, 46151, 46249, 46347, 46443, 46539, 46634, 46728,
  46821, 46913, 47004, 47095, 47184, 47273, 47361, 47449, 47535, 47621, 47706, 47791,
  47874, 47957, 48040, 48121, 48202, 48283, 48362, 48441, 48520, 48598, 48675, 48751,
  48828, 48903, 48978, 49052, 49126, 49199, 49272, 49344, 49416, 49487, 49558, 49628,
  49698, 49767, 49836, 49904, 49972, 50039, 50106, 50172, 50238, 50304, 50369, 50434,
  50498, 50562, 50625, 50689, 50751, 50814, 50875, 50937, 50998, 51059, 51119, 51179,
  51239, 51298, 51357, 51416, 51474, 51532, 51590, 51647, 51704, 51761, 51817, 51873,
  51929, 51984, 52040, 52094, 52149, 52203, 52257, 52311, 52364, 52417, 52470, 52522,
  52574, 52626, 52678, 52729, 52781, 52832, 52882, 52933, 52983, 53033, 53082, 53132,
  53181, 53230, 53278, 53327, 53375, 53423, 53471, 53518, 53565, 53612, 53659, 53706,
  53752, 53798, 53844, 53890, 53936, 53981, 54026, 54071, 54116, 54161, 54205, 54249,
  54293, 54337, 54380, 54424, 54467, 54510, 54553, 54595, 54638, 54680, 54722, 54764,
  54806, 54847, 54889, 54930, 54971, 55012, 55053, 55093, 55134, 55174, 55214, 55254,
  55294, 55333, 55373, 55412, 55451 ]

/-- The function `logInt`, by its values: `math.Log` is floating-point library code. At `0` the
logarithm is `-Inf`, which the conversion to `int` turns into the least `int64` on amd64 and on
arm64. Bases above 256 are not tabulated (the value given there is `0`); no digit held
in a byte belongs to such a base, and no statement below depends on that value. -/
def logInt (base : Nat) : Int :=
  if base = 0 then -9223372036854775808 else logIntTable.getD base 0

def Direction (from_base to_base : Nat) : CodecDirection :=
  { from_base := from_base, to_base := to_base,
    from_log := logInt from_base, to_log := logInt to_base }

/-- The size estimate `1 + size*cd.from_log/cd.to_log`; Go divides integers by truncation and
panics on a zero divisor. -/
def CodecDirection.approximateSize (cd : CodecDirection) (size : Nat) : Except Panic Int :=
  if cd.to_log = 0 then .error .divideByZero
  else .ok (1 + Int.tdiv ((size : Int) * cd.from_log) cd.to_log)

/-- The loop of `divmod` over the digits from `startAt` on, with the running remainder: it
returns the digits it leaves behind and the last remainder. `byte(..)` keeps the low 8 bits. -/
def CodecDirection.divmodFrom (cd : CodecDirection) : List Nat → Nat → List Nat × Nat
  | [], remaining => ([], remaining)
  | d :: rest, remaining =>
    let num := cd.from_base * remaining + d
    let r := divmodFrom cd rest (num % cd.to_base)
    ((num / cd.to_base) % 256 :: r.1, r.2)

/-- One pass `divmod(digits, startAt)`: the contents of `digits` afterwards and the remainder.
The first division panics when `to_base` is zero. -/
def CodecDirection.divmod (cd : CodecDirection) (digits : List Nat) (startAt : Nat) :
    Except Panic (List Nat × Nat) :=
  if startAt < digits.length ∧ cd.to_base = 0 then .error .divideByZero
  else
    let r := cd.divmodFrom (digits.drop startAt) 0
    .ok (digits.take startAt ++ r.1, r.2)

structure Alphabet where
  key : List Nat
  /-- The map `index`: the entry found first is the one written last. -/
  index : List (Nat × Nat)
  encode_direction : CodecDirection
  decode_direction : CodecDirection
  deriving DecidableEq, Repr

/-- The map access `abc.index[ch]`: zero for an absent key. -/
def Alphabet.indexAt (abc : Alphabet) (ch : Nat) : Nat :=
  (abc.index.lookup ch).getD 0

/-- The package variable `alphabet_cache`, a map from alphabet string to alphabet. -/
abbrev AlphabetCache := List (List Nat × Alphabet)

/-- The value `make(map[string]*Alphabet)` the cache is initialised with. No statement of the
package assigns to the cache, so this is its value throughout. -/
def alphabet_cache : AlphabetCache := []

/-- The loop of `GetAlphabet` over the bytes from position `i` on. -/
def GetAlphabet.loop : List Nat → Nat → List Nat → List (Nat × Nat) →
    Except CodecError (List Nat × List (Nat × Nat))
  | [], _, key, index => .ok (key, index)
  | ch :: rest, i, key, index =>
    if ch < 128 then GetAlphabet.loop rest (i + 1) (key.set i ch) ((ch, i % 256) :: index)
    else .error (.nonAscii ch i)

def GetAlphabet (cache : AlphabetCache) (alphabet : List Nat) : Except CodecError Alphabet :=
  match cache.lookup alphabet with
  | some abc => .ok abc
  | none =>
    let base := alphabet.length
    match GetAlphabet.loop alphabet 0 (List.replicate base 0) [] with
    | .error e => .error e
    | .ok (key, index) =>
      .ok { key := key, index := index,
            encode_direction := Direction 256 base, decode_direction := Direction base 256 }

def GetAlphabetById (cache : AlphabetCache) (id : Int) : Except CodecError Alphabet :=
  GetAlphabet cache (AlphabetsAt id)

/-- The contents of `alphabet_cache` after a call `GetAlphabet(alphabet)` that found the
contents `cache`: the function reads the map, and no statement of it stores into the map. -/
def GetAlphabet.cacheAfter (cache : AlphabetCache) (_alphabet : List Nat) : AlphabetCache :=
  cache

def Alphabet.toDigits (abc : Alphabet) (encoded : List Nat) : List Nat :=
  encoded.map abc.indexAt

/-- The bytes of a rune below 2048 in a Go string (UTF-8). -/
def runeBytes (r : Nat) : List Nat :=
  if r < 128 then [r] else [192 + r / 64, 128 + r % 64]

/-- The text of a digit sequence; `abc.key[digit]` panics for a digit outside the key. -/
def Alphabet.toChars (abc : Alphabet) : List Nat → Except Panic (List Nat)
  | [] => .ok []
  | d :: rest =>
    match abc.key[d]? with
    | none => .error .indexOutOfRange
    | some ch =>
      match abc.toChars rest with
      | .error e => .error e
      | .ok text => .ok (runeBytes ch ++ text)

/-- The double hash `sha256x2`, over the hash function `Sum256`. -/
def sha256x2 (Sum256 : List Nat → List Nat) (data : List Nat) : List Nat :=
  Sum256 (Sum256 data)

def countLeadingZeros : List Nat → Nat
  | 0 :: rest => countLeadingZeros rest + 1
  | _ => 0

/-- What a repacking strategy leaves behind: the contents of `from` and of `to` after the
call, and the returned index. -/
structure Repacked where
  fromDigits : List Nat
  toBuffer : List Nat
  firstNonZero : Nat
  deriving DecidableEq, Repr

structure Codec where
  abc : Alphabet
  cloneBuffer : Bool
  repackDigits : CodecDirection → List Nat → List Nat → Nat → Except Panic Repacked

/-- The loop of `repackWithLoop`, by recursion on `j`. -/
def repackWithLoop.loop (direction : CodecDirection) (leadingZeros : Nat) :
    Nat → List Nat → List Nat → Nat → Nat → Except Panic Repacked
  | 0, fromDigits, toBuffer, _, firstNonZero => .ok ⟨fromDigits, toBuffer, firstNonZero⟩
  | j + 1, fromDigits, toBuffer, startAt, firstNonZero =>
    if startAt < fromDigits.length ∧ leadingZeros < j + 1 then
      match direction.divmod fromDigits startAt with
      | .error e => .error e
      | .ok (from1, mod) =>
        repackWithLoop.loop direction leadingZeros j from1 (toBuffer.set j (mod % 256))
          (if from1.getD startAt 0 = 0 then startAt + 1 else startAt)
          (if mod ≠ 0 then j else firstNonZero)
    else .ok ⟨fromDigits, toBuffer, firstNonZero⟩

def repackWithLoop (direction : CodecDirection) (fromDigits toBuffer : List Nat)
    (leadingZeros : Nat) : Except Panic Repacked :=
  repackWithLoop.loop direction leadingZeros toBuffer.length fromDigits toBuffer leadingZeros
    toBuffer.length

/-- The first loop of `repackWithBigInt`: the number the digits denote. -/
def repackWithBigInt.acc (from_base : Nat) (digits : List Nat) : Nat :=
  digits.foldl (fun acc d => acc * from_base + d) 0

/-- The second loop of `repackWithBigInt`, by recursion on `j`; `to[j]` panics once `j` is
negative. -/
def repackWithBigInt.loop (to_base : Nat) :
    Nat → Nat → List Nat → Nat → Except Panic (List Nat × Nat)
  | 0, acc, toBuffer, firstNonZero =>
    if acc = 0 then .ok (toBuffer, firstNonZero)
    else if to_base = 0 then .error .divideByZero
    else .error .indexOutOfRange
  | j + 1, acc, toBuffer, firstNonZero =>
    if acc = 0 then .ok (toBuffer, firstNonZero)
    else if to_base = 0 then .error .divideByZero
    else
      repackWithBigInt.loop to_base j (acc / to_base) (toBuffer.set j (acc % to_base % 256))
        (if acc % to_base % 256 ≠ 0 then j else firstNonZero)

def repackWithBigInt (direction : CodecDirection) (fromDigits toBuffer : List Nat)
    (leadingZeros : Nat) : Except Panic Repacked :=
  match repackWithBigInt.loop direction.to_base toBuffer.length
      (repackWithBigInt.acc direction.from_base (fromDigits.drop leadingZeros)) toBuffer
      toBuffer.length with
  | .error e => .error e
  | .ok (to2, firstNonZero) => .ok ⟨fromDigits, to2, firstNonZero⟩

/-- The two values of `CodecId` that index `CodecSettings`. -/
inductive CodecId where
  | Loop
  | BigInt
  deriving DecidableEq, Repr

/-- The table `CodecSettings`: name, `cloneBuffer` and `repackDigits` of each strategy. -/
def CodecSettings : CodecId → String × Bool ×
    (CodecDirection → List Nat → List Nat → Nat → Except Panic Repacked)
  | .Loop => ("Loop", true, repackWithLoop)
  | .BigInt => ("BigInt", false, repackWithBigInt)

def CodecId.String (cid : CodecId) : String :=
  (CodecSettings cid).1

def CodecId.NewCodec (cid : CodecId) (abc : Alphabet) : Codec :=
  { abc := abc, cloneBuffer := (CodecSettings cid).2.1, repackDigits := (CodecSettings cid).2.2 }

/-- What `codeDigits` returns, and the contents of its argument `digits` afterwards. -/
structure Coded where
  result : List Nat
  digits : List Nat
  deriving DecidableEq, Repr

def Codec.codeDigits (cc : Codec) (digits : List Nat) (direction : CodecDirection) :
    Except Panic Coded :=
  if digits.length = 0 then .ok ⟨digits, digits⟩
  else
    let leadingZeros := countLeadingZeros digits
    match direction.approximateSize (digits.length - leadingZeros) with
    | .error e => .error e
    | .ok codeSize =>
      if (leadingZeros : Int) + codeSize < 0 then .error .makeLen
      else
        let out := List.replicate ((leadingZeros : Int) + codeSize).toNat 0
        match cc.repackDigits direction digits out leadingZeros with
        | .error e => .error e
        | .ok r =>
          if r.firstNonZero = leadingZeros then .ok ⟨r.toBuffer, r.fromDigits⟩
          else if r.firstNonZero < leadingZeros ∨
              r.toBuffer.length < r.firstNonZero - leadingZeros then .error .sliceBounds
          else .ok ⟨r.toBuffer.drop (r.firstNonZero - leadingZeros), r.fromDigits⟩

/-- A text, and the contents of the buffer it was made from after the call. -/
structure Encoded where
  text : List Nat
  buffer : List Nat
  deriving DecidableEq, Repr

def Codec.encodeDigits (cc : Codec) (digits : List Nat) : Except Panic Encoded :=
  match cc.codeDigits digits cc.abc.encode_direction with
  | .error e => .error e
  | .ok c =>
    match cc.abc.toChars c.result with
    | .error e => .error e
    | .ok text => .ok ⟨text, c.digits⟩

/-- The loop of `CopyBytes`, with `j = offset + i`: the contents of `dest` afterwards. -/
def CopyBytes.loop : List Nat → List Nat → Nat → List Nat
  | [], dest, _ => dest
  | s :: rest, dest, j =>
    if j < dest.length then CopyBytes.loop rest (dest.set j s) (j + 1) else dest

def CopyBytes (src dest : List Nat) (offset : Nat) : List Nat :=
  CopyBytes.loop src dest offset

/-- The function `Encode`: the text, and the contents of the caller's `buffer` afterwards. -/
def Codec.Encode (cc : Codec) (buffer : List Nat) : Except Panic Encoded :=
  if !cc.cloneBuffer then cc.encodeDigits buffer
  else
    match cc.encodeDigits (CopyBytes buffer (List.replicate buffer.length 0) 0) with
    | .error e => .error e
    | .ok r => .ok ⟨r.text, buffer⟩

def Codec.Decode (cc : Codec) (text : List Nat) : Except Panic (List Nat) :=
  match cc.codeDigits (cc.abc.toDigits text) cc.abc.decode_direction with
  | .error e => .error e
  | .ok c => .ok c.result

/-- The function `EncodeCheck`: the text, and the contents of the caller's `buffer`
afterwards. -/
def Codec.EncodeCheck (Sum256 : List Nat → List Nat) (cc : Codec) (buffer : List Nat) :
    Except Panic Encoded :=
  let rawLen := buffer.length
  let bufWithCheck := CopyBytes buffer (List.replicate (rawLen + 4) 0) 0
  let bufWithCheck1 := CopyBytes (sha256x2 Sum256 buffer) bufWithCheck rawLen
  match cc.encodeDigits bufWithCheck1 with
  | .error e => .error e
  | .ok r => .ok ⟨r.text, buffer⟩

/-- The function `DecodeCheck`: a panic, or the pair the function returns, as the error or
the payload. -/
def Codec.DecodeCheck (Sum256 : List Nat → List Nat) (cc : Codec) (text : List Nat) :
    Except Panic (Except CodecError (List Nat)) :=
  match cc.Decode text with
  | .error e => .error e
  | .ok buffer =>
    if buffer.length < 4 then .error .sliceBounds
    else
      let payloadLen := buffer.length - 4
      let out := buffer.take payloadLen
      let sha := sha256x2 Sum256 out
      if sha.length < 4 then .error .sliceBounds
      else if sha.take 4 ≠ buffer.drop payloadLen then .ok (.error .checksum)
      else .ok (.ok out)

/-! ## Notions used to state the properties

The definitions above follow the source; those below name what the statements are about. -/

/-- The alphabet `GetAlphabetById` returns for `id`, with the alphabet of the empty string in
the place of an error. -/
def registryAlphabet (id : Int) : Alphabet :=
  match GetAlphabetById alphabet_cache id with
  | .ok abc => abc
  | .error _ => { key := [], index := [], encode_direction := Direction 256 0,
                  decode_direction := Direction 0 256 }

/-- The number of copies of `c` a text starts with. -/
def leadingCount (c : Nat) : List Nat → Nat
  | ch :: rest => if ch = c then leadingCount c rest + 1 else 0
  | [] => 0

/-- The number a digit sequence denotes in `base`, most significant digit first. -/
def valueOf (base : Nat) (digits : List Nat) : Nat :=
  digits.foldl (fun acc d => acc * base + d) 0

/-- A buffer whose digits before `firstNonZero` are all zero and whose digit at
`firstNonZero`, if there is one, is not zero. -/
def Trimmed (toBuffer : List Nat) (firstNonZero : Nat) : Prop :=
  firstNonZero ≤ toBuffer.length ∧ (∀ i, i < firstNonZero → toBuffer.getD i 0 = 0) ∧
    (firstNonZero < toBuffer.length → toBuffer.getD firstNonZero 0 ≠ 0)

/-- The properties of the registry alphabets that the conversions rely on: between 2 and 256
distinct 7-bit characters, an index that inverts the key and holds digit values only, the two
directions between 256 and the base, and positive logarithms. -/
def Alphabet.WellFormed (abc : Alphabet) : Prop :=
  2 ≤ abc.key.length ∧ abc.key.length ≤ 256 ∧ abc.key.Nodup ∧ (∀ ch ∈ abc.key, ch < 128) ∧
    (∀ i, i < abc.key.length → abc.indexAt (abc.key.getD i 0) = i) ∧
    (∀ p ∈ abc.index, p.2 < abc.key.length) ∧
    abc.encode_direction.from_base = 256 ∧ abc.encode_direction.to_base = abc.key.length ∧
    abc.decode_direction.from_base = abc.key.length ∧ abc.decode_direction.to_base = 256 ∧
    0 < abc.encode_direction.from_log ∧ 0 < abc.encode_direction.to_log ∧
    0 < abc.decode_direction.from_log ∧ 0 < abc.decode_direction.to_log

instance (abc : Alphabet) : Decidable abc.WellFormed := by
  unfold Alphabet.WellFormed; infer_instance

/-- The `n` least significant digits of `v` in `base`, most significant digit first, in front
of the digits `acc`. -/
def digitsOfFront (base : Nat) : Nat → Nat → List Nat → List Nat
  | 0, _, acc => acc
  | n + 1, v, acc => digitsOfFront base n (v / base) (v % base :: acc)

/-- The `n` least significant digits of `v` in `base`, most significant digit first. -/
def digitsOf (base n v : Nat) : List Nat :=
  digitsOfFront base n v []

/-- A digit sequence without its leading zero digits. -/
def stripZeros (digits : List Nat) : List Nat :=
  digits.drop (countLeadingZeros digits)

/-- The digit sequence a conversion into a buffer of `size` digits is to produce: the leading
zero digits of `digits`, followed by the `size` least significant `to_base` digits, without
their leading zeros, of the number that the rest of `digits` denotes in `from_base`. -/
def converted (direction : CodecDirection) (size : Nat) (digits : List Nat) : List Nat :=
  List.replicate (countLeadingZeros digits) 0 ++
    stripZeros (digitsOf direction.to_base size
      (valueOf direction.from_base (digits.drop (countLeadingZeros digits))))

/-- The size estimate of `approximateSize` as a natural number. -/
def CodecDirection.estimate (cd : CodecDirection) (size : Nat) : Nat :=
  (1 + Int.tdiv ((size : Int) * cd.from_log) cd.to_log).toNat

/-- The digit sequence `Encode` is to turn into text, for a buffer of the estimated size. -/
def Alphabet.encoded (abc : Alphabet) (buffer : List Nat) : List Nat :=
  converted abc.encode_direction
    (abc.encode_direction.estimate (buffer.length - countLeadingZeros buffer)) buffer

/-- The byte sequence `Decode` is to return, for a buffer of the estimated size. -/
def Alphabet.decoded (abc : Alphabet) (text : List Nat) : List Nat :=
  converted abc.decode_direction
    (abc.decode_direction.estimate
      ((abc.toDigits text).length - countLeadingZeros (abc.toDigits text)))
    (abc.toDigits text)

/-- The characters of a digit sequence, one byte each. -/
def Alphabet.chars (abc : Alphabet) (digits : List Nat) : List Nat :=
  digits.map (fun d => abc.key.getD d 0)

set_option maxRecDepth 100000

/-! ### Copying and the alphabet constructor -/

theorem CopyBytes_loop_eq (src : List Nat) : ∀ (dest : List Nat) (j : Nat),
    CopyBytes.loop src dest j =
      dest.take j ++ src.take (dest.length - j) ++ dest.drop (j + src.length) := by
  induction src with
  | nil => intro dest j; simp [CopyBytes.loop]
  | cons s rest ih =>
    intro dest j
    unfold CopyBytes.loop
    by_cases h : j < dest.length
    · rw [if_pos h, ih]
      have h1 : dest.length - j = (dest.length - (j + 1)) + 1 := by omega
      rw [List.length_set, h1, List.take_succ_cons]
      rw [List.set_eq_take_append_cons_drop, if_pos h]
      have h2 : (List.take j dest).length = j := by simp; omega
      rw [List.take_append_eq_append_take, List.drop_append_eq_append_drop]
      simp [h2, List.take_take]
      have h4 : j + 1 + rest.length - j = rest.length + 1 := by omega
      have h5 : List.drop (j + 1 + rest.length) (List.take j dest) = [] :=
        List.drop_eq_nil_of_le (by rw [h2]; omega)
      rw [h4, h5, List.drop_succ_cons, List.drop_drop]
      simp only [List.nil_append]
      congr 1
      omega
    · rw [if_neg h]
      have h1 : dest.length - j = 0 := by omega
      have h2 : dest.length ≤ j := by omega
      simp [h1, List.take_of_length_le h2, List.drop_eq_nil_of_le (show dest.length ≤ j + (rest.length + 1) by omega)]

theorem CopyBytes_clone (b : List Nat) : CopyBytes b (List.replicate b.length 0) 0 = b := by
  unfold CopyBytes
  rw [CopyBytes_loop_eq]
  simp

theorem CopyBytes_check (b sha : List Nat) (h : 4 ≤ sha.length) :
    CopyBytes sha (CopyBytes b (List.replicate (b.length + 4) 0) 0) b.length = b ++ sha.take 4 := by
  unfold CopyBytes
  rw [CopyBytes_loop_eq, CopyBytes_loop_eq]
  simp
  rw [List.drop_eq_nil_of_le (by simp; omega)]
  simp

theorem CopyBytes_check_any (b sha : List Nat) :
    CopyBytes sha (CopyBytes b (List.replicate (b.length + 4) 0) 0) b.length =
      b ++ (sha.take 4 ++ List.replicate (4 - sha.length) 0) := by
  have h1 : CopyBytes.loop b (List.replicate (b.length + 4) 0) 0 = b ++ List.replicate 4 0 := by
    rw [CopyBytes_loop_eq]
    simp only [List.take_zero, List.nil_append, List.length_replicate, Nat.sub_zero,
      Nat.zero_add, List.drop_replicate, Nat.add_sub_cancel_left]
    rw [List.take_of_length_le (by omega)]
  unfold CopyBytes
  rw [h1, CopyBytes_loop_eq, List.take_left', List.length_append, List.length_replicate,
    Nat.add_sub_cancel_left, List.drop_append, List.drop_replicate, List.append_assoc]
  rfl

theorem GetAlphabet_loop_ok (rest : List Nat) : ∀ (i : Nat) (key : List Nat) (index : List (Nat × Nat)),
    (∀ x ∈ rest, x < 128) → key.length = i + rest.length →
    ∃ index1, GetAlphabet.loop rest i key index = .ok (key.take i ++ rest, index1) := by
  induction rest with
  | nil => intro i key index _ hk; exact ⟨index, by simp [GetAlphabet.loop, List.take_of_length_le (show key.length ≤ i by simpa using hk.le)]⟩
  | cons ch rest ih =>
    intro i key index hall hk
    have hch : ch < 128 := hall ch (by simp)
    obtain ⟨index1, h1⟩ := ih (i + 1) (key.set i ch) ((ch, i % 256) :: index)
      (fun x hx => hall x (by simp [hx])) (by simp at hk ⊢; omega)
    refine ⟨index1, ?_⟩
    unfold GetAlphabet.loop
    rw [if_pos hch, h1]
    have hi : i < key.length := by simp at hk; omega
    rw [List.set_eq_take_append_cons_drop, if_pos hi, List.take_append_eq_append_take]
    simp only [List.take_take, List.length_take, List.append_assoc, List.cons_append]
    rw [show i + 1 - min i key.length = 1 by omega, show min (i + 1) i = i by omega]
    simp

theorem GetAlphabet_loop_error (rest : List Nat) : ∀ (i : Nat) (key : List Nat) (index : List (Nat × Nat)),
    (∃ x ∈ rest, 128 ≤ x) →
    GetAlphabet.loop rest i key index =
      .error (.nonAscii (rest.getD (rest.findIdx (fun x => decide (128 ≤ x))) 0)
        (i + rest.findIdx (fun x => decide (128 ≤ x)))) := by
  induction rest with
  | nil => intro i key index h; simp at h
  | cons ch rest ih =>
    intro i key index h
    unfold GetAlphabet.loop
    by_cases hch : ch < 128
    · rw [if_pos hch]
      have h' : ∃ x ∈ rest, 128 ≤ x := by
        obtain ⟨x, hx, hx2⟩ := h
        simp at hx
        rcases hx with rfl | hx
        · omega
        · exact ⟨x, hx, hx2⟩
      rw [ih _ _ _ h', List.findIdx_cons]
      have : decide (128 ≤ ch) = false := by simp; omega
      simp [this]
      omega
    · rw [if_neg hch, List.findIdx_cons]
      have : decide (128 ≤ ch) = true := by simp; omega
      simp [this]

theorem Decode_nil (cc : Codec) : cc.Decode [] = .ok [] := by
  simp [Codec.Decode, Alphabet.toDigits, Codec.codeDigits]

theorem registryAlphabet_facts (id : Int) (hid : id ∈ registryIds) :
    GetAlphabetById alphabet_cache id = .ok (registryAlphabet id) ∧
      ((registryAlphabet id).key.length : Int) = id ∧ (registryAlphabet id).key.Nodup ∧
      (∀ ch ∈ (registryAlphabet id).key, ch < 128) ∧
      (registryAlphabet id).encode_direction = Direction 256 (registryAlphabet id).key.length ∧
      (registryAlphabet id).decode_direction = Direction (registryAlphabet id).key.length 256 ∧
      ∀ i, i < (registryAlphabet id).key.length →
        (registryAlphabet id).indexAt ((registryAlphabet id).key.getD i 0) = i := by
  simp only [registryIds, List.mem_cons, List.mem_singleton, List.not_mem_nil, or_false] at hid
  rcases hid with rfl | rfl | rfl | rfl | rfl | rfl | rfl | rfl | rfl | rfl <;> decide!

theorem registryAlphabet_wellFormed (id : Int) (hid : id ∈ registryIds) :
    GetAlphabetById alphabet_cache id = .ok (registryAlphabet id) ∧
      (registryAlphabet id).WellFormed ∧ ((registryAlphabet id).key.length : Int) = id := by
  simp only [registryIds, List.mem_cons, List.mem_singleton, List.not_mem_nil, or_false] at hid
  rcases hid with rfl | rfl | rfl | rfl | rfl | rfl | rfl | rfl | rfl | rfl <;> decide!

theorem mem_replicate_lt (n v bound : Nat) (h : v < bound) :
    ∀ x ∈ List.replicate n v, x < bound := by
  intro x hx
  rw [(List.mem_replicate.mp hx).2]
  exact h

theorem mem_of_lookup (l : List (Nat × Nat)) (ch v : Nat) (h : l.lookup ch = some v) :
    (ch, v) ∈ l := by
  induction l with
  | nil => simp at h
  | cons p rest ih =>
    obtain ⟨p1, p2⟩ := p
    rw [List.lookup_cons] at h
    by_cases hp : ch = p1
    · subst hp
      simp only [beq_self_eq_true] at h
      cases h
      simp
    · have hb : (ch == p1) = false := by simpa using hp
      simp only [hb] at h
      exact List.mem_cons_of_mem _ (ih h)

/-! ### Leading zeros and the trimming invariant -/

theorem countLeadingZeros_nil : countLeadingZeros [] = 0 := rfl

theorem countLeadingZeros_zero_cons (rest : List Nat) :
    countLeadingZeros (0 :: rest) = countLeadingZeros rest + 1 := rfl

theorem countLeadingZeros_cons_ne (d : Nat) (rest : List Nat) (h : d ≠ 0) :
    countLeadingZeros (d :: rest) = 0 := by
  cases d with
  | zero => exact absurd rfl h
  | succ n => rfl

theorem countLeadingZeros_le (l : List Nat) : countLeadingZeros l ≤ l.length := by
  induction l with
  | nil => simp [countLeadingZeros_nil]
  | cons d rest ih =>
    by_cases h : d = 0
    · subst h; rw [countLeadingZeros_zero_cons]; simp; omega
    · rw [countLeadingZeros_cons_ne d rest h]; omega

theorem countLeadingZeros_eq_of (l : List Nat) : ∀ k, k ≤ l.length →
    (∀ i, i < k → l.getD i 0 = 0) → (k < l.length → l.getD k 0 ≠ 0) →
    countLeadingZeros l = k := by
  induction l with
  | nil => intro k hk _ _; simp at hk; simp [countLeadingZeros_nil, hk]
  | cons d rest ih =>
    intro k hk hz hnz
    cases k with
    | zero =>
      have : d ≠ 0 := by simpa using hnz (by simp)
      exact countLeadingZeros_cons_ne d rest this
    | succ k =>
      have hd : d = 0 := by simpa using hz 0 (by omega)
      subst hd
      rw [countLeadingZeros_zero_cons, ih k (by simpa using hk)]
      · intro i hi; simpa using hz (i + 1) (by omega)
      · intro hk2; simpa using hnz (by simpa using hk2)

theorem countLeadingZeros_zeros_append (n : Nat) (l : List Nat) :
    countLeadingZeros (List.replicate n 0 ++ l) = n + countLeadingZeros l := by
  induction n with
  | zero => simp
  | succ n ih =>
    rw [List.replicate_succ, List.cons_append, countLeadingZeros_zero_cons, ih]
    omega

theorem eq_zeros_append_stripZeros (l : List Nat) :
    l = List.replicate (countLeadingZeros l) 0 ++ stripZeros l := by
  induction l with
  | nil => rfl
  | cons d rest ih =>
    by_cases hd : d = 0
    · subst hd
      rw [stripZeros, countLeadingZeros_zero_cons, List.replicate_succ, List.drop_succ_cons,
        List.cons_append]
      congr 1
    · rw [stripZeros, countLeadingZeros_cons_ne d rest hd]
      rfl

theorem stripZeros_replicate_zero (n : Nat) : stripZeros (List.replicate n 0) = [] := by
  have h := countLeadingZeros_zeros_append n []
  simp only [List.append_nil, countLeadingZeros_nil, Nat.add_zero] at h
  rw [stripZeros, h]
  exact List.drop_eq_nil_of_le (by simp)

theorem getD_drop (l : List Nat) (m i : Nat) : (l.drop m).getD i 0 = l.getD (m + i) 0 := by
  simp [List.getD_eq_getElem?_getD, List.getElem?_drop]

theorem drop_set_self (l : List Nat) (j m : Nat) (h : j < l.length) :
    (l.set j m).drop j = m :: l.drop (j + 1) := by
  rw [List.set_eq_take_append_cons_drop, if_pos h]
  have : (List.take j l).length = j := by simp; omega
  rw [List.drop_append_eq_append_drop, this, List.drop_eq_nil_of_le (by omega)]
  simp

theorem take_eq_replicate_of_zero (l : List Nat) : ∀ n, n ≤ l.length →
    (∀ i, i < n → l.getD i 0 = 0) → l.take n = List.replicate n 0 := by
  induction l with
  | nil => intro n hn _; simp at hn; simp [hn]
  | cons d rest ih =>
    intro n hn hz
    cases n with
    | zero => rfl
    | succ n =>
      have hd : d = 0 := by simpa using hz 0 (by omega)
      rw [List.take_succ_cons, List.replicate_succ, hd,
        ih n (by simpa using hn) (fun i hi => by simpa using hz (i + 1) (by omega))]

theorem drop_take_append (l qs : List Nat) (s : Nat) (h : s ≤ l.length) :
    (l.take s ++ qs).drop s = qs := by
  have : (List.take s l).length = s := by simp; omega
  rw [List.drop_append_eq_append_drop, this, List.drop_eq_nil_of_le (by omega)]
  simp

theorem getD_take_append (l qs : List Nat) (s : Nat) (h : s ≤ l.length) :
    (l.take s ++ qs).getD s 0 = qs.getD 0 0 := by
  have := getD_drop (l.take s ++ qs) s 0
  rw [drop_take_append l qs s h] at this
  simpa using this.symm

theorem drop_succ_take_append (l qs : List Nat) (s : Nat) (h : s ≤ l.length) :
    (l.take s ++ qs).drop (s + 1) = qs.drop 1 := by
  rw [← List.drop_drop, drop_take_append l qs s h]

theorem Trimmed_replicate (n : Nat) : Trimmed (List.replicate n 0) n := by
  refine ⟨by simp, ?_, by simp⟩
  intro i hi
  simp [List.getD_eq_getElem?_getD, List.getElem?_replicate, hi]

theorem Trimmed_set (toBuffer : List Nat) (firstNonZero j v : Nat)
    (h : Trimmed toBuffer firstNonZero) (hj : j < firstNonZero) :
    Trimmed (toBuffer.set j v) (if v ≠ 0 then j else firstNonZero) := by
  obtain ⟨h1, h2, h3⟩ := h
  have hjl : j < toBuffer.length := by omega
  by_cases hv : v ≠ 0
  · rw [if_pos hv]
    refine ⟨by simp; omega, ?_, ?_⟩
    · intro i hi
      have := h2 i (by omega)
      simpa [List.getD_eq_getElem?_getD, List.getElem?_set, show ¬ j = i by omega] using this
    · intro _
      simpa [List.getD_eq_getElem?_getD, List.getElem?_set, hjl] using hv
  · rw [if_neg hv]
    have hv0 : v = 0 := by simpa using hv
    refine ⟨by simpa using h1, ?_, ?_⟩
    · intro i hi
      by_cases hij : j = i
      · subst hij; simp [List.getD_eq_getElem?_getD, List.getElem?_set, hjl, hv0]
      · have := h2 i hi
        simpa [List.getD_eq_getElem?_getD, List.getElem?_set, hij] using this
    · intro hlt
      have := h3 (by simpa using hlt)
      simpa [List.getD_eq_getElem?_getD, List.getElem?_set, show ¬ j = firstNonZero by omega]
        using this

theorem Trimmed_firstNonZero (toBuffer : List Nat) (firstNonZero : Nat)
    (h : Trimmed toBuffer firstNonZero) : firstNonZero = countLeadingZeros toBuffer :=
  (countLeadingZeros_eq_of toBuffer firstNonZero h.1 h.2.1 h.2.2).symm

theorem drop_of_trimmed (leadingZeros : Nat) (D : List Nat) (firstNonZero : Nat)
    (h : Trimmed (List.replicate leadingZeros 0 ++ D) firstNonZero) :
    leadingZeros ≤ firstNonZero ∧ firstNonZero ≤ (List.replicate leadingZeros 0 ++ D).length ∧
    (List.replicate leadingZeros 0 ++ D).drop (firstNonZero - leadingZeros) =
      List.replicate leadingZeros 0 ++ stripZeros D := by
  have hf := Trimmed_firstNonZero _ _ h
  rw [countLeadingZeros_zeros_append] at hf
  refine ⟨by omega, h.1, ?_⟩
  rw [hf, Nat.add_sub_cancel_left]
  have hD := eq_zeros_append_stripZeros D
  generalize countLeadingZeros D = c at hD ⊢
  generalize stripZeros D = S at hD ⊢
  subst hD
  rw [← List.append_assoc, ← List.replicate_add, Nat.add_comm, List.replicate_add,
    List.append_assoc, List.drop_left' (by simp)]

theorem forall_lt_set (toBuffer : List Nat) (j v bound : Nat)
    (h : ∀ x ∈ toBuffer, x < bound) (hv : v < bound) : ∀ x ∈ toBuffer.set j v, x < bound := by
  intro x hx
  rcases List.mem_or_eq_of_mem_set hx with hx | rfl
  · exact h x hx
  · exact hv

/-! ### Numbers and their digits -/

theorem foldl_value (base : Nat) (l : List Nat) : ∀ acc,
    l.foldl (fun acc d => acc * base + d) acc = acc * base ^ l.length + valueOf base l := by
  induction l with
  | nil => intro acc; simp [valueOf]
  | cons d rest ih =>
    intro acc
    simp only [List.foldl_cons, valueOf, List.length_cons]
    rw [ih, ih (0 * base + d)]
    ring

theorem valueOf_nil (base : Nat) : valueOf base [] = 0 := rfl

theorem valueOf_cons (base d : Nat) (l : List Nat) :
    valueOf base (d :: l) = d * base ^ l.length + valueOf base l := by
  simp only [valueOf, List.foldl_cons]
  rw [foldl_value]
  simp [valueOf]

theorem valueOf_append (base : Nat) (l1 l2 : List Nat) :
    valueOf base (l1 ++ l2) = valueOf base l1 * base ^ l2.length + valueOf base l2 := by
  simp only [valueOf, List.foldl_append]
  rw [foldl_value]
  simp [valueOf]

theorem valueOf_replicate_zero (base n : Nat) : valueOf base (List.replicate n 0) = 0 := by
  induction n with
  | zero => rfl
  | succ n ih => rw [List.replicate_succ, valueOf_cons, ih]; simp

theorem valueOf_zeros_append (base n : Nat) (l : List Nat) :
    valueOf base (List.replicate n 0 ++ l) = valueOf base l := by
  rw [valueOf_append, valueOf_replicate_zero]; simp

theorem valueOf_lt_pow (base : Nat) (l : List Nat) (h : ∀ x ∈ l, x < base) :
    valueOf base l < base ^ l.length := by
  induction l with
  | nil => simp [valueOf]
  | cons d rest ih =>
    rw [valueOf_cons, List.length_cons, pow_succ]
    have hd : d < base := h d (by simp)
    have hr := ih (fun x hx => h x (by simp [hx]))
    calc d * base ^ rest.length + valueOf base rest
        < d * base ^ rest.length + base ^ rest.length := by omega
      _ = (d + 1) * base ^ rest.length := by ring
      _ ≤ base * base ^ rest.length := Nat.mul_le_mul_right _ hd
      _ = base ^ rest.length * base := by ring

theorem digitsOfFront_append (base : Nat) : ∀ n v acc,
    digitsOfFront base n v acc = digitsOfFront base n v [] ++ acc := by
  intro n
  induction n with
  | zero => intro v acc; rfl
  | succ n ih =>
    intro v acc
    simp only [digitsOfFront]
    rw [ih (v / base) (v % base :: acc), ih (v / base) [v % base]]
    simp

theorem digitsOf_width_zero (base v : Nat) : digitsOf base 0 v = [] := rfl

theorem digitsOf_succ (base n v : Nat) :
    digitsOf base (n + 1) v = digitsOf base n (v / base) ++ [v % base] := by
  simp only [digitsOf, digitsOfFront]
  exact digitsOfFront_append base n (v / base) [v % base]

theorem digitsOf_length (base : Nat) : ∀ n v, (digitsOf base n v).length = n := by
  intro n
  induction n with
  | zero => intro v; rfl
  | succ n ih => intro v; simp [digitsOf_succ, ih]

theorem digitsOf_lt (base : Nat) (hb : 0 < base) : ∀ n v, ∀ x ∈ digitsOf base n v, x < base := by
  intro n
  induction n with
  | zero => intro v x hx; simp [digitsOf_width_zero] at hx
  | succ n ih =>
    intro v x hx
    simp only [digitsOf_succ, List.mem_append, List.mem_singleton] at hx
    rcases hx with hx | rfl
    · exact ih _ x hx
    · exact Nat.mod_lt _ hb

theorem valueOf_digitsOf (base : Nat) : ∀ n v, valueOf base (digitsOf base n v) = v % base ^ n := by
  intro n
  induction n with
  | zero => intro v; simp [digitsOf_width_zero, valueOf, Nat.mod_one]
  | succ n ih =>
    intro v
    rw [digitsOf_succ, valueOf_append, ih]
    simp only [List.length_singleton, pow_one, valueOf_cons, List.length_nil, pow_zero, mul_one,
      valueOf_nil, add_zero]
    rw [pow_succ, show base ^ n * base = base * base ^ n by ring, Nat.mod_mul]
    ring

theorem digitsOf_zero (base : Nat) : ∀ n, digitsOf base n 0 = List.replicate n 0 := by
  intro n
  induction n with
  | zero => rfl
  | succ n ih =>
    rw [digitsOf_succ, Nat.zero_div, ih, Nat.zero_mod, List.replicate_succ']

theorem digitsOf_add (base : Nat) : ∀ k m v,
    digitsOf base (m + k) v = digitsOf base m (v / base ^ k) ++ digitsOf base k v := by
  intro k
  induction k with
  | zero => intro m v; simp [digitsOf_width_zero]
  | succ k ih =>
    intro m v
    rw [← Nat.add_assoc, digitsOf_succ, ih, digitsOf_succ, List.append_assoc, Nat.div_div_eq_div_mul,
      pow_succ, Nat.mul_comm base]

theorem digitsOf_of_lt (base : Nat) (k m v : Nat) (h : v < base ^ k) :
    digitsOf base (m + k) v = List.replicate m 0 ++ digitsOf base k v := by
  rw [digitsOf_add, Nat.div_eq_of_lt h, digitsOf_zero]

theorem converted_nil (direction : CodecDirection) (size : Nat) : converted direction size [] = [] := by
  simp [converted, countLeadingZeros_nil, valueOf_nil, digitsOf_zero, stripZeros_replicate_zero]

theorem converted_lt (direction : CodecDirection) (h0 : 0 < direction.to_base) (size : Nat)
    (digits : List Nat) : ∀ x ∈ converted direction size digits, x < direction.to_base := by
  intro x hx
  simp only [converted, List.mem_append] at hx
  rcases hx with hx | hx
  · rw [(List.mem_replicate.mp hx).2]; exact h0
  · exact digitsOf_lt _ h0 _ _ x (List.mem_of_mem_drop hx)

/-! ### The long-division pass -/

theorem divmodFrom_remaining_lt (cd : CodecDirection) (h : 0 < cd.to_base) (l : List Nat) :
    ∀ remaining, remaining < cd.to_base → (cd.divmodFrom l remaining).2 < cd.to_base := by
  induction l with
  | nil => intro remaining hr; simpa [CodecDirection.divmodFrom] using hr
  | cons d rest ih =>
    intro remaining _
    simp only [CodecDirection.divmodFrom]
    exact ih _ (Nat.mod_lt _ h)

theorem divmod_eq (cd : CodecDirection) (h : 0 < cd.to_base) (digits : List Nat) (startAt : Nat) :
    cd.divmod digits startAt =
      .ok (digits.take startAt ++ (cd.divmodFrom (digits.drop startAt) 0).1,
        (cd.divmodFrom (digits.drop startAt) 0).2) := by
  simp [CodecDirection.divmod, Nat.pos_iff_ne_zero.mp h]

theorem divmod_ok (cd : CodecDirection) (h : 0 < cd.to_base) (digits : List Nat) (startAt : Nat) :
    ∃ digits1 remaining, cd.divmod digits startAt = .ok (digits1, remaining) ∧
      remaining < cd.to_base :=
  ⟨_, _, divmod_eq cd h digits startAt, divmodFrom_remaining_lt cd h (digits.drop startAt) 0 h⟩

/-- One pass of `divmod` divides the number made of the incoming remainder and the digits by
`to_base`: the digits left behind denote the quotient, and the pass returns the remainder. -/
theorem divmodFrom_spec (cd : CodecDirection) (h0 : 0 < cd.to_base) (h256 : cd.from_base ≤ 256)
    (l : List Nat) (hl : ∀ x ∈ l, x < cd.from_base) : ∀ remaining, remaining < cd.to_base →
    (cd.divmodFrom l remaining).1.length = l.length ∧
    (∀ x ∈ (cd.divmodFrom l remaining).1, x < cd.from_base) ∧
    valueOf cd.from_base (cd.divmodFrom l remaining).1 =
      (remaining * cd.from_base ^ l.length + valueOf cd.from_base l) / cd.to_base ∧
    (cd.divmodFrom l remaining).2 =
      (remaining * cd.from_base ^ l.length + valueOf cd.from_base l) % cd.to_base := by
  induction l with
  | nil =>
    intro remaining hr
    simp [CodecDirection.divmodFrom, valueOf_nil, Nat.div_eq_of_lt hr, Nat.mod_eq_of_lt hr]
  | cons d rest ih =>
    intro remaining hr
    have hd : d < cd.from_base := hl d (by simp)
    obtain ⟨i1, i2, i3, i4⟩ := ih (fun x hx => hl x (by simp [hx]))
      ((cd.from_base * remaining + d) % cd.to_base) (Nat.mod_lt _ h0)
    have hnum : cd.from_base * remaining + d < cd.from_base * cd.to_base := by
      calc cd.from_base * remaining + d < cd.from_base * remaining + cd.from_base := by omega
        _ = cd.from_base * (remaining + 1) := by ring
        _ ≤ cd.from_base * cd.to_base := Nat.mul_le_mul_left _ hr
    have hq : (cd.from_base * remaining + d) / cd.to_base < cd.from_base :=
      (Nat.div_lt_iff_lt_mul h0).mpr hnum
    have hq256 : (cd.from_base * remaining + d) / cd.to_base % 256 =
        (cd.from_base * remaining + d) / cd.to_base := Nat.mod_eq_of_lt (by omega)
    have hX : remaining * cd.from_base ^ (d :: rest).length + valueOf cd.from_base (d :: rest) =
        cd.to_base * ((cd.from_base * remaining + d) / cd.to_base * cd.from_base ^ rest.length) +
          ((cd.from_base * remaining + d) % cd.to_base * cd.from_base ^ rest.length +
            valueOf cd.from_base rest) := by
      rw [valueOf_cons, List.length_cons, pow_succ]
      have := Nat.div_add_mod (cd.from_base * remaining + d) cd.to_base
      calc remaining * (cd.from_base ^ rest.length * cd.from_base) +
            (d * cd.from_base ^ rest.length + valueOf cd.from_base rest)
          = (cd.from_base * remaining + d) * cd.from_base ^ rest.length +
            valueOf cd.from_base rest := by ring
        _ = (cd.to_base * ((cd.from_base * remaining + d) / cd.to_base) +
              (cd.from_base * remaining + d) % cd.to_base) * cd.from_base ^ rest.length +
            valueOf cd.from_base rest := by rw [this]
        _ = _ := by ring
    simp only [CodecDirection.divmodFrom, hq256]
    refine ⟨by simp [i1], ?_, ?_, ?_⟩
    · intro x hx
      simp only [List.mem_cons] at hx
      rcases hx with rfl | hx
      · exact hq
      · exact i2 x hx
    · rw [valueOf_cons, i1, i3, hX, Nat.mul_add_div h0]
    · rw [i4, hX, Nat.mul_add_mod]

theorem divmodFrom_zero_spec (cd : CodecDirection) (h0 : 0 < cd.to_base)
    (h256 : cd.from_base ≤ 256) (l : List Nat) (hl : ∀ x ∈ l, x < cd.from_base) :
    (cd.divmodFrom l 0).1.length = l.length ∧
    (∀ x ∈ (cd.divmodFrom l 0).1, x < cd.from_base) ∧
    valueOf cd.from_base (cd.divmodFrom l 0).1 = valueOf cd.from_base l / cd.to_base ∧
    (cd.divmodFrom l 0).2 = valueOf cd.from_base l % cd.to_base := by
  simpa using divmodFrom_spec cd h0 h256 l hl 0 h0

/-! ### The two strategies -/

theorem repackWithLoop_loop_trimmed (direction : CodecDirection) (leadingZeros : Nat)
    (h0 : 0 < direction.to_base) (h256 : direction.to_base ≤ 256) :
    ∀ (j : Nat) (fromDigits toBuffer : List Nat) (startAt firstNonZero : Nat),
      Trimmed toBuffer firstNonZero → j ≤ firstNonZero →
      (∀ x ∈ toBuffer, x < direction.to_base) →
      ∃ r, repackWithLoop.loop direction leadingZeros j fromDigits toBuffer startAt firstNonZero
          = .ok r ∧
        Trimmed r.toBuffer r.firstNonZero ∧ min leadingZeros firstNonZero ≤ r.firstNonZero ∧
        r.toBuffer.length = toBuffer.length ∧ ∀ x ∈ r.toBuffer, x < direction.to_base := by
  intro j
  induction j with
  | zero =>
    intro fromDigits toBuffer startAt firstNonZero ht _ hb
    exact ⟨_, rfl, ht, Nat.min_le_right _ _, rfl, hb⟩
  | succ j ih =>
    intro fromDigits toBuffer startAt firstNonZero ht hj hb
    unfold repackWithLoop.loop
    by_cases hc : startAt < fromDigits.length ∧ leadingZeros < j + 1
    · rw [if_pos hc]
      obtain ⟨from1, mod, hdm, hmod⟩ := divmod_ok direction h0 fromDigits startAt
      rw [hdm]
      simp only
      have hm256 : mod % 256 = mod := Nat.mod_eq_of_lt (by omega)
      have hset := Trimmed_set toBuffer firstNonZero j (mod % 256) ht (by omega)
      rw [hm256] at hset
      obtain ⟨r, hr, h1, h2, h3, h4⟩ := ih from1 (toBuffer.set j (mod % 256))
        (if from1.getD startAt 0 = 0 then startAt + 1 else startAt)
        (if mod ≠ 0 then j else firstNonZero) (by rw [hm256]; exact hset)
        (by split <;> omega)
        (forall_lt_set toBuffer j (mod % 256) _ hb (by omega))
      refine ⟨r, hr, h1, ?_, by simpa using h3, h4⟩
      split at h2 <;> omega
    · rw [if_neg hc]
      exact ⟨_, rfl, ht, Nat.min_le_right _ _, rfl, hb⟩

theorem repackWithBigInt_loop_trimmed (to_base : Nat) :
    ∀ (j acc : Nat) (toBuffer : List Nat) (firstNonZero : Nat),
      Trimmed toBuffer firstNonZero → j ≤ firstNonZero →
      (∀ x ∈ toBuffer, x < to_base) →
      ∀ to2 firstNonZero2,
        repackWithBigInt.loop to_base j acc toBuffer firstNonZero = .ok (to2, firstNonZero2) →
        Trimmed to2 firstNonZero2 ∧ to2.length = toBuffer.length ∧ ∀ x ∈ to2, x < to_base := by
  intro j
  induction j with
  | zero =>
    intro acc toBuffer firstNonZero ht _ hb to2 firstNonZero2 h
    unfold repackWithBigInt.loop at h
    split at h
    · cases h; exact ⟨ht, rfl, hb⟩
    · split at h <;> cases h
  | succ j ih =>
    intro acc toBuffer firstNonZero ht hj hb to2 firstNonZero2 h
    unfold repackWithBigInt.loop at h
    split at h
    · cases h; exact ⟨ht, rfl, hb⟩
    · split at h
      · cases h
      · rename_i hacc htb
        have hpos : 0 < to_base := Nat.pos_of_ne_zero htb
        have hlt : acc % to_base % 256 < to_base :=
          lt_of_le_of_lt (Nat.mod_le _ _) (Nat.mod_lt _ hpos)
        obtain ⟨h1, h2, h3⟩ := ih (acc / to_base) (toBuffer.set j (acc % to_base % 256))
          (if acc % to_base % 256 ≠ 0 then j else firstNonZero)
          (Trimmed_set toBuffer firstNonZero j _ ht (by omega)) (by split <;> omega)
          (forall_lt_set toBuffer j _ _ hb hlt) to2 firstNonZero2 h
        exact ⟨h1, by simpa using h2, h3⟩

theorem repackWithLoop_trimmed (direction : CodecDirection) (h0 : 0 < direction.to_base)
    (h256 : direction.to_base ≤ 256) (fromDigits : List Nat) (n leadingZeros : Nat) :
    ∃ r, repackWithLoop direction fromDigits (List.replicate n 0) leadingZeros = .ok r ∧
      Trimmed r.toBuffer r.firstNonZero ∧ min leadingZeros n ≤ r.firstNonZero ∧
      r.toBuffer.length = n ∧ ∀ x ∈ r.toBuffer, x < direction.to_base := by
  have h := repackWithLoop_loop_trimmed direction leadingZeros h0 h256 n fromDigits
    (List.replicate n 0) leadingZeros n (Trimmed_replicate n) (le_refl _)
    (by intro x hx; rw [(List.mem_replicate.mp hx).2]; exact h0)
  simpa [repackWithLoop] using h

theorem repackWithBigInt_trimmed (direction : CodecDirection) (h0 : 0 < direction.to_base)
    (fromDigits : List Nat) (n leadingZeros : Nat) (r : Repacked)
    (h : repackWithBigInt direction fromDigits (List.replicate n 0) leadingZeros = .ok r) :
    Trimmed r.toBuffer r.firstNonZero ∧ r.toBuffer.length = n ∧
      ∀ x ∈ r.toBuffer, x < direction.to_base := by
  unfold repackWithBigInt at h
  split at h
  · cases h
  · rename_i to2 firstNonZero heq
    cases h
    rw [List.length_replicate] at heq
    have := repackWithBigInt_loop_trimmed direction.to_base _ _ _ _ (Trimmed_replicate n)
      (le_refl _) (by intro x hx; rw [(List.mem_replicate.mp hx).2]; exact h0) to2 firstNonZero heq
    simpa using this

theorem repackWithLoop_loop_content (direction : CodecDirection) (leadingZeros : Nat)
    (h0 : 0 < direction.to_base) (htb : direction.to_base ≤ 256)
    (hfb : direction.from_base ≤ 256) :
    ∀ (j : Nat) (fromDigits toBuffer : List Nat) (startAt firstNonZero : Nat),
      leadingZeros ≤ j → j ≤ toBuffer.length → (∀ i, i < j → toBuffer.getD i 0 = 0) →
      (∀ x ∈ fromDigits.drop startAt, x < direction.from_base) →
      ∀ r, repackWithLoop.loop direction leadingZeros j fromDigits toBuffer startAt firstNonZero
          = .ok r →
        r.toBuffer = List.replicate leadingZeros 0 ++
          digitsOf direction.to_base (j - leadingZeros)
            (valueOf direction.from_base (fromDigits.drop startAt)) ++ toBuffer.drop j := by
  intro j
  induction j with
  | zero =>
    intro fromDigits toBuffer startAt firstNonZero hlz _ _ _ r hr
    have : leadingZeros = 0 := by omega
    subst this
    cases hr
    simp [digitsOf_width_zero]
  | succ j ih =>
    intro fromDigits toBuffer startAt firstNonZero hlz hj hz hfrom r hr
    unfold repackWithLoop.loop at hr
    by_cases hc : startAt < fromDigits.length ∧ leadingZeros < j + 1
    · rw [if_pos hc, divmod_eq direction h0] at hr
      simp only at hr
      obtain ⟨d1, d2, d3, d4⟩ := divmodFrom_zero_spec direction h0 hfb _ hfrom
      generalize (direction.divmodFrom (fromDigits.drop startAt) 0).1 = qs at hr d1 d2 d3
      generalize (direction.divmodFrom (fromDigits.drop startAt) 0).2 = m at hr d4
      have hmod : m < direction.to_base := by rw [d4]; exact Nat.mod_lt _ h0
      have hm256 : m % 256 = m := Nat.mod_eq_of_lt (by omega)
      have hsl : startAt ≤ fromDigits.length := by omega
      rw [getD_take_append _ _ _ hsl, hm256] at hr
      have hqs : qs ≠ [] := by
        intro hnil
        rw [hnil] at d1
        simp at d1
        omega
      obtain ⟨q, qt, rfl⟩ := List.exists_cons_of_ne_nil hqs
      have hval : valueOf direction.from_base
          (List.drop (if (q :: qt).getD 0 0 = 0 then startAt + 1 else startAt)
            (List.take startAt fromDigits ++ q :: qt)) =
          valueOf direction.from_base (fromDigits.drop startAt) / direction.to_base := by
        rw [← d3]
        by_cases hq0 : q = 0
        · subst hq0
          simp only [List.getD_cons_zero, if_true]
          rw [drop_succ_take_append _ _ _ hsl]
          simp [valueOf_cons]
        · simp only [List.getD_cons_zero, if_neg hq0]
          rw [drop_take_append _ _ _ hsl]
      have hbound : ∀ x ∈ List.drop (if (q :: qt).getD 0 0 = 0 then startAt + 1 else startAt)
          (List.take startAt fromDigits ++ q :: qt), x < direction.from_base := by
        intro x hx
        apply d2 x
        split at hx
        · rw [drop_succ_take_append _ _ _ hsl] at hx
          exact List.mem_of_mem_drop hx
        · rw [drop_take_append _ _ _ hsl] at hx; exact hx
      have hih := ih _ _ _ _ (by omega) (by simpa using (by omega : j ≤ toBuffer.length))
        (fun i hi => by
          have := hz i (by omega)
          simpa [List.getD_eq_getElem?_getD, List.getElem?_set, show ¬ j = i by omega] using this)
        hbound r hr
      rw [hih, hval, drop_set_self _ _ _ (by omega), show j + 1 - leadingZeros =
        (j - leadingZeros) + 1 by omega, digitsOf_succ, ← d4]
      simp only [List.append_assoc, List.singleton_append]
    · rw [if_neg hc] at hr
      cases hr
      simp only
      have hzeros := take_eq_replicate_of_zero toBuffer (j + 1) hj hz
      by_cases hlt : leadingZeros < j + 1
      · have hge : fromDigits.length ≤ startAt := by
          by_contra hcon; exact hc ⟨by omega, hlt⟩
        rw [List.drop_eq_nil_of_le hge, valueOf_nil, digitsOf_zero, ← List.replicate_add,
          show leadingZeros + (j + 1 - leadingZeros) = j + 1 by omega, ← hzeros,
          List.take_append_drop]
      · have : leadingZeros = j + 1 := by omega
        rw [this, Nat.sub_self, digitsOf_width_zero, List.append_nil, ← hzeros, List.take_append_drop]

theorem repackWithBigInt_loop_content (to_base : Nat) (h0 : 0 < to_base) (h256 : to_base ≤ 256) :
    ∀ (j acc : Nat) (toBuffer : List Nat) (firstNonZero : Nat),
      j ≤ toBuffer.length → (∀ i, i < j → toBuffer.getD i 0 = 0) →
      (acc < to_base ^ j → ∃ firstNonZero2,
        repackWithBigInt.loop to_base j acc toBuffer firstNonZero =
          .ok (digitsOf to_base j acc ++ toBuffer.drop j, firstNonZero2)) ∧
      (to_base ^ j ≤ acc →
        repackWithBigInt.loop to_base j acc toBuffer firstNonZero = .error .indexOutOfRange) := by
  intro j
  induction j with
  | zero =>
    intro acc toBuffer firstNonZero _ _
    unfold repackWithBigInt.loop
    constructor
    · intro h
      have : acc = 0 := by simpa using h
      exact ⟨firstNonZero, by simp [this, digitsOf_width_zero]⟩
    · intro h
      have : acc ≠ 0 := by simp at h; omega
      simp [this, Nat.pos_iff_ne_zero.mp h0]
  | succ j ih =>
    intro acc toBuffer firstNonZero hj hz
    unfold repackWithBigInt.loop
    by_cases hacc : acc = 0
    · subst hacc
      constructor
      · intro _
        refine ⟨firstNonZero, ?_⟩
        simp only [if_true]
        rw [digitsOf_zero, ← take_eq_replicate_of_zero toBuffer (j + 1) hj hz,
          List.take_append_drop]
      · intro h
        have := Nat.pos_pow_of_pos (j + 1) h0
        omega
    · rw [if_neg hacc, if_neg (Nat.pos_iff_ne_zero.mp h0)]
      have hm : acc % to_base % 256 = acc % to_base :=
        Nat.mod_eq_of_lt (lt_of_lt_of_le (Nat.mod_lt _ h0) h256)
      obtain ⟨ih1, ih2⟩ := ih (acc / to_base) (toBuffer.set j (acc % to_base % 256))
        (if acc % to_base % 256 ≠ 0 then j else firstNonZero)
        (by simpa using (by omega : j ≤ toBuffer.length))
        (fun i hi => by
          have := hz i (by omega)
          simpa [List.getD_eq_getElem?_getD, List.getElem?_set, show ¬ j = i by omega] using this)
      constructor
      · intro h
        obtain ⟨f2, hf2⟩ := ih1 (by
          rw [Nat.div_lt_iff_lt_mul h0]; rwa [pow_succ] at h)
        refine ⟨f2, ?_⟩
        rw [hf2, hm, drop_set_self _ _ _ (by omega), digitsOf_succ]
        simp
      · intro h
        exact ih2 (by rw [Nat.le_div_iff_mul_le h0]; rwa [pow_succ] at h)

/-! ### The conversion of a digit sequence -/

theorem NewCodec_abc (cid : CodecId) (abc : Alphabet) : (cid.NewCodec abc).abc = abc := by
  cases cid <;> rfl

theorem NewCodec_cloneBuffer_Loop (abc : Alphabet) :
    (CodecId.Loop.NewCodec abc).cloneBuffer = true := rfl

theorem NewCodec_cloneBuffer_BigInt (abc : Alphabet) :
    (CodecId.BigInt.NewCodec abc).cloneBuffer = false := rfl

theorem NewCodec_sound (cid : CodecId) (abc : Alphabet) (direction : CodecDirection)
    (h0 : 0 < direction.to_base) (h256 : direction.to_base ≤ 256) (digits : List Nat)
    (n : Nat) (r : Repacked)
    (h : (cid.NewCodec abc).repackDigits direction digits (List.replicate n 0)
      (countLeadingZeros digits) = .ok r) :
    Trimmed r.toBuffer r.firstNonZero ∧ ∀ x ∈ r.toBuffer, x < direction.to_base := by
  cases cid with
  | Loop =>
    obtain ⟨r1, hr1, ht, _, _, hb⟩ :=
      repackWithLoop_trimmed direction h0 h256 digits n (countLeadingZeros digits)
    have : r = r1 := by
      have h' : repackWithLoop direction digits (List.replicate n 0)
        (countLeadingZeros digits) = .ok r := h
      rw [hr1] at h'; cases h'; rfl
    subst this
    exact ⟨ht, hb⟩
  | BigInt =>
    obtain ⟨ht, _, hb⟩ := repackWithBigInt_trimmed direction h0 digits n _ r h
    exact ⟨ht, hb⟩

theorem codeDigits_leading (cid : CodecId) (abc : Alphabet) (direction : CodecDirection)
    (h0 : 0 < direction.to_base) (h256 : direction.to_base ≤ 256) (digits : List Nat)
    (c : Coded) (h : (cid.NewCodec abc).codeDigits digits direction = .ok c) :
    countLeadingZeros c.result = countLeadingZeros digits ∧
      ∀ x ∈ c.result, x < direction.to_base := by
  by_cases hlen : digits.length = 0
  · have : digits = [] := List.length_eq_zero.mp hlen
    subst this
    simp [Codec.codeDigits] at h
    cases h
    exact ⟨rfl, by simp⟩
  · unfold Codec.codeDigits at h
    rw [if_neg hlen] at h
    simp only at h
    split at h
    · cases h
    · split at h
      · cases h
      · split at h
        · cases h
        · rename_i r hr
          obtain ⟨⟨t1, t2, t3⟩, hbound⟩ := NewCodec_sound cid abc direction h0 h256 digits _ r hr
          split at h
          · rename_i heq
            cases h
            refine ⟨?_, hbound⟩
            simp only
            exact countLeadingZeros_eq_of _ _ (heq ▸ t1) (fun i hi => t2 i (heq ▸ hi))
              (fun hlt => heq ▸ t3 (heq ▸ hlt))
          · split at h
            · cases h
            · rename_i hne hor
              cases h
              simp only
              have hle : countLeadingZeros digits < r.firstNonZero := by omega
              refine ⟨countLeadingZeros_eq_of _ _ ?_ ?_ ?_, ?_⟩
              · simp; omega
              · intro i hi; rw [getD_drop]; exact t2 _ (by omega)
              · intro hlt
                rw [getD_drop, show r.firstNonZero - countLeadingZeros digits +
                  countLeadingZeros digits = r.firstNonZero by omega]
                exact t3 (by simp at hlt; omega)
              · intro x hx; exact hbound x (List.mem_of_mem_drop hx)

theorem approximateSize_ok (direction : CodecDirection) (hf : 0 ≤ direction.from_log)
    (ht : 0 < direction.to_log) (size : Nat) :
    ∃ codeSize, direction.approximateSize size = .ok codeSize ∧ 0 < codeSize := by
  refine ⟨1 + Int.tdiv ((size : Int) * direction.from_log) direction.to_log,
    by simp [CodecDirection.approximateSize, ht.ne'], ?_⟩
  have := Int.tdiv_nonneg (mul_nonneg (Int.natCast_nonneg size) hf) ht.le
  omega

theorem approximateSize_eq (direction : CodecDirection) (ht : direction.to_log ≠ 0) (size : Nat) :
    direction.approximateSize size =
      .ok (1 + Int.tdiv ((size : Int) * direction.from_log) direction.to_log) := by
  simp [CodecDirection.approximateSize, ht]

theorem approximateSize_estimate (direction : CodecDirection) (hf : 0 ≤ direction.from_log)
    (ht : 0 < direction.to_log) (size : Nat) :
    ∃ sz : Int, direction.approximateSize size = .ok sz ∧ 0 ≤ sz ∧
      sz.toNat = direction.estimate size := by
  obtain ⟨sz, h1, h2⟩ := approximateSize_ok direction hf ht size
  refine ⟨sz, h1, h2.le, ?_⟩
  rw [approximateSize_eq direction ht.ne' size] at h1
  cases h1
  rfl

theorem codeDigits_Loop_ok (abc : Alphabet) (direction : CodecDirection)
    (h0 : 0 < direction.to_base) (h256 : direction.to_base ≤ 256)
    (hf : 0 ≤ direction.from_log) (ht : 0 < direction.to_log) (digits : List Nat) :
    ∃ c, (CodecId.Loop.NewCodec abc).codeDigits digits direction = .ok c := by
  by_cases hlen : digits.length = 0
  · exact ⟨⟨digits, digits⟩, by simp [Codec.codeDigits, hlen]⟩
  · obtain ⟨codeSize, hcs, hpos⟩ :=
      approximateSize_ok direction hf ht (digits.length - countLeadingZeros digits)
    have hnn : ¬ ((countLeadingZeros digits : Int) + codeSize < 0) := by omega
    obtain ⟨r, hr, htr, hmin, hl, _⟩ := repackWithLoop_trimmed direction h0 h256 digits
      ((countLeadingZeros digits : Int) + codeSize).toNat (countLeadingZeros digits)
    have hr2 : (CodecId.Loop.NewCodec abc).repackDigits direction digits
        (List.replicate ((countLeadingZeros digits : Int) + codeSize).toNat 0)
        (countLeadingZeros digits) = .ok r := hr
    have hlz : countLeadingZeros digits ≤ r.firstNonZero := by
      have : countLeadingZeros digits ≤ ((countLeadingZeros digits : Int) + codeSize).toNat := by
        omega
      omega
    unfold Codec.codeDigits
    rw [if_neg hlen]
    simp only [hcs, if_neg hnn, hr2]
    by_cases heq : r.firstNonZero = countLeadingZeros digits
    · exact ⟨_, by rw [if_pos heq]⟩
    · rw [if_neg heq]
      have : ¬ (r.firstNonZero < countLeadingZeros digits ∨
          r.toBuffer.length < r.firstNonZero - countLeadingZeros digits) := by
        have := htr.1
        omega
      exact ⟨_, by rw [if_neg this]⟩

theorem codeDigits_of_repack (cc : Codec) (direction : CodecDirection) (digits : List Nat)
    (hne : digits ≠ []) (sz : Int)
    (hsz : direction.approximateSize (digits.length - countLeadingZeros digits) = .ok sz)
    (hnn : 0 ≤ sz) (r : Repacked)
    (hr : cc.repackDigits direction digits
      (List.replicate (countLeadingZeros digits + sz.toNat) 0) (countLeadingZeros digits) = .ok r)
    (D : List Nat) (hbuf : r.toBuffer = List.replicate (countLeadingZeros digits) 0 ++ D)
    (ht : Trimmed r.toBuffer r.firstNonZero) :
    cc.codeDigits digits direction =
      .ok ⟨List.replicate (countLeadingZeros digits) 0 ++ stripZeros D, r.fromDigits⟩ := by
  have hlen : ¬ digits.length = 0 := by
    intro h; exact hne (List.length_eq_zero.mp h)
  have hN : ((countLeadingZeros digits : Int) + sz).toNat = countLeadingZeros digits + sz.toNat := by
    omega
  have hnn2 : ¬ ((countLeadingZeros digits : Int) + sz < 0) := by omega
  rw [hbuf] at ht
  obtain ⟨t1, t2, t3⟩ := drop_of_trimmed _ D _ ht
  unfold Codec.codeDigits
  rw [if_neg hlen]
  simp only [hsz, if_neg hnn2, hN, hr]
  by_cases heq : r.firstNonZero = countLeadingZeros digits
  · rw [if_pos heq]
    rw [heq, Nat.sub_self, List.drop_zero] at t3
    rw [hbuf, t3]
  · rw [if_neg heq, hbuf, if_neg (by omega), t3]

/-- The Loop strategy returns the leading zero digits followed by the `sz` least significant
digits of the number, without their leading zeros: it drops the digits the buffer cannot
hold. -/
theorem codeDigits_Loop_eq (abc : Alphabet) (direction : CodecDirection)
    (h0 : 0 < direction.to_base) (htb : direction.to_base ≤ 256)
    (hfb : direction.from_base ≤ 256) (digits : List Nat)
    (hd : ∀ x ∈ digits, x < direction.from_base) (hne : digits ≠ []) (sz : Int)
    (hsz : direction.approximateSize (digits.length - countLeadingZeros digits) = .ok sz)
    (hnn : 0 ≤ sz) :
    ∃ c, (CodecId.Loop.NewCodec abc).codeDigits digits direction = .ok c ∧
      c.result = converted direction sz.toNat digits := by
  obtain ⟨r, hr, htr, _, hl, _⟩ := repackWithLoop_trimmed direction h0 htb digits
    (countLeadingZeros digits + sz.toNat) (countLeadingZeros digits)
  have hcontent := repackWithLoop_loop_content direction (countLeadingZeros digits) h0 htb hfb
    (countLeadingZeros digits + sz.toNat) digits
    (List.replicate (countLeadingZeros digits + sz.toNat) 0) (countLeadingZeros digits)
    (countLeadingZeros digits + sz.toNat) (by omega) (by simp)
    (fun i hi => by simp [List.getD_eq_getElem?_getD, List.getElem?_replicate, hi])
    (fun x hx => hd x (List.mem_of_mem_drop hx)) r
    (by simpa [repackWithLoop] using hr)
  have hdrop : List.drop (countLeadingZeros digits + sz.toNat)
      (List.replicate (countLeadingZeros digits + sz.toNat) 0) = [] :=
    List.drop_eq_nil_of_le (by simp)
  rw [Nat.add_sub_cancel_left, hdrop, List.append_nil] at hcontent
  exact ⟨_, codeDigits_of_repack (CodecId.Loop.NewCodec abc) direction digits hne sz hsz hnn r hr _
    (by rw [hcontent]) htr, rfl⟩

/-- The BigInt strategy returns the leading zero digits followed by the digits of the
number, provided the number fits the estimated buffer. -/
theorem codeDigits_BigInt_eq (abc : Alphabet) (direction : CodecDirection)
    (h0 : 0 < direction.to_base) (htb : direction.to_base ≤ 256) (digits : List Nat)
    (hne : digits ≠ []) (sz : Int)
    (hsz : direction.approximateSize (digits.length - countLeadingZeros digits) = .ok sz)
    (hnn : 0 ≤ sz)
    (hfit : valueOf direction.from_base (digits.drop (countLeadingZeros digits)) <
      direction.to_base ^ sz.toNat) :
    (CodecId.BigInt.NewCodec abc).codeDigits digits direction =
      .ok ⟨converted direction sz.toNat digits, digits⟩ := by
  have hfitN : valueOf direction.from_base (digits.drop (countLeadingZeros digits)) <
      direction.to_base ^ (countLeadingZeros digits + sz.toNat) :=
    lt_of_lt_of_le hfit (Nat.pow_le_pow_right h0 (by omega))
  obtain ⟨f2, hf2⟩ := (repackWithBigInt_loop_content direction.to_base h0 htb
    (countLeadingZeros digits + sz.toNat)
    (valueOf direction.from_base (digits.drop (countLeadingZeros digits)))
    (List.replicate (countLeadingZeros digits + sz.toNat) 0)
    (countLeadingZeros digits + sz.toNat) (by simp)
    (fun i hi => by simp [List.getD_eq_getElem?_getD, List.getElem?_replicate, hi])).1 hfitN
  have hdrop : List.drop (countLeadingZeros digits + sz.toNat)
      (List.replicate (countLeadingZeros digits + sz.toNat) 0) = [] :=
    List.drop_eq_nil_of_le (by simp)
  rw [hdrop, List.append_nil, digitsOf_of_lt _ _ _ _ hfit] at hf2
  have hr : repackWithBigInt direction digits
      (List.replicate (countLeadingZeros digits + sz.toNat) 0) (countLeadingZeros digits) =
      .ok ⟨digits, List.replicate (countLeadingZeros digits) 0 ++
        digitsOf direction.to_base sz.toNat
          (valueOf direction.from_base (digits.drop (countLeadingZeros digits))), f2⟩ := by
    unfold repackWithBigInt
    simp only [List.length_replicate]
    have : repackWithBigInt.acc direction.from_base (digits.drop (countLeadingZeros digits)) =
      valueOf direction.from_base (digits.drop (countLeadingZeros digits)) := rfl
    rw [this, hf2]
  have htr := (repackWithBigInt_trimmed direction h0 digits _ _ _ hr).1
  exact codeDigits_of_repack (CodecId.BigInt.NewCodec abc) direction digits hne sz hsz hnn _ hr _
    rfl htr

theorem codeDigits_BigInt_overflow (abc : Alphabet) (direction : CodecDirection)
    (h0 : 0 < direction.to_base) (htb : direction.to_base ≤ 256) (digits : List Nat)
    (hne : digits ≠ []) (sz : Int)
    (hsz : direction.approximateSize (digits.length - countLeadingZeros digits) = .ok sz)
    (hnn : 0 ≤ sz)
    (hover : direction.to_base ^ (countLeadingZeros digits + sz.toNat) ≤
      valueOf direction.from_base (digits.drop (countLeadingZeros digits))) :
    (CodecId.BigInt.NewCodec abc).codeDigits digits direction = .error .indexOutOfRange := by
  have herr := (repackWithBigInt_loop_content direction.to_base h0 htb
    (countLeadingZeros digits + sz.toNat)
    (valueOf direction.from_base (digits.drop (countLeadingZeros digits)))
    (List.replicate (countLeadingZeros digits + sz.toNat) 0)
    (countLeadingZeros digits + sz.toNat) (by simp)
    (fun i hi => by simp [List.getD_eq_getElem?_getD, List.getElem?_replicate, hi])).2 hover
  have hr : repackWithBigInt direction digits
      (List.replicate (countLeadingZeros digits + sz.toNat) 0) (countLeadingZeros digits) =
      .error .indexOutOfRange := by
    unfold repackWithBigInt
    simp only [List.length_replicate]
    have : repackWithBigInt.acc direction.from_base (digits.drop (countLeadingZeros digits)) =
      valueOf direction.from_base (digits.drop (countLeadingZeros digits)) := rfl
    rw [this, herr]
  have hlen : ¬ digits.length = 0 := by
    intro h; exact hne (List.length_eq_zero.mp h)
  have hN : ((countLeadingZeros digits : Int) + sz).toNat = countLeadingZeros digits + sz.toNat := by
    omega
  have hnn2 : ¬ ((countLeadingZeros digits : Int) + sz < 0) := by omega
  unfold Codec.codeDigits
  rw [if_neg hlen]
  simp only [hsz, if_neg hnn2, hN]
  have hr2 : (CodecId.BigInt.NewCodec abc).repackDigits direction digits
      (List.replicate (countLeadingZeros digits + sz.toNat) 0) (countLeadingZeros digits) =
      .error .indexOutOfRange := hr
  rw [hr2]

/-! ### Texts -/

theorem toChars_ok (abc : Alphabet) (hkey : ∀ ch ∈ abc.key, ch < 128) (ds : List Nat)
    (hds : ∀ d ∈ ds, d < abc.key.length) :
    abc.toChars ds = .ok (ds.map (fun d => abc.key.getD d 0)) := by
  induction ds with
  | nil => rfl
  | cons d rest ih =>
    have hd : d < abc.key.length := hds d (by simp)
    have hget : abc.key[d]? = some abc.key[d] := List.getElem?_eq_getElem hd
    have hlt : abc.key[d] < 128 := hkey _ (List.getElem_mem hd)
    unfold Alphabet.toChars
    rw [hget]
    simp only
    rw [ih (fun x hx => hds x (by simp [hx]))]
    simp [runeBytes, hlt, List.getD_eq_getElem?_getD, hget]

theorem toChars_digits_lt (abc : Alphabet) (ds : List Nat) :
    ∀ text, abc.toChars ds = .ok text → ∀ d ∈ ds, d < abc.key.length := by
  induction ds with
  | nil => intro text _ d hd; simp at hd
  | cons d rest ih =>
    intro text h
    unfold Alphabet.toChars at h
    split at h
    · cases h
    · rename_i ch hch
      split at h
      · cases h
      · rename_i text1 h1
        intro x hx
        simp at hx
        rcases hx with rfl | hx
        · by_contra hlt
          rw [List.getElem?_eq_none (by omega)] at hch
          cases hch
        · exact ih text1 h1 x hx

theorem leadingCount_map (f : Nat → Nat) (ds : List Nat)
    (hf : ∀ d ∈ ds, d ≠ 0 → f d ≠ f 0) :
    leadingCount (f 0) (ds.map f) = countLeadingZeros ds := by
  induction ds with
  | nil => rfl
  | cons d rest ih =>
    by_cases hd : d = 0
    · subst hd
      simp only [List.map_cons, leadingCount, if_true, countLeadingZeros_zero_cons]
      rw [ih (fun x hx => hf x (by simp [hx]))]
    · simp only [List.map_cons, leadingCount, countLeadingZeros_cons_ne d rest hd]
      rw [if_neg (hf d (by simp) hd)]

theorem countLeadingZeros_map (g : Nat → Nat) (c : Nat) (text : List Nat) (hc : g c = 0)
    (hg : ∀ ch ∈ text, ch ≠ c → g ch ≠ 0) :
    countLeadingZeros (text.map g) = leadingCount c text := by
  induction text with
  | nil => rfl
  | cons ch rest ih =>
    by_cases h : ch = c
    · subst h
      simp only [List.map_cons, leadingCount, if_true, hc, countLeadingZeros_zero_cons]
      rw [ih (fun x hx => hg x (by simp [hx]))]
    · simp only [List.map_cons, leadingCount, if_neg h]
      exact countLeadingZeros_cons_ne _ _ (hg ch (by simp) h)

theorem key_getD_ne (abc : Alphabet) (hwf : abc.WellFormed) (d : Nat) (hd : d < abc.key.length)
    (h0 : d ≠ 0) : abc.key.getD d 0 ≠ abc.key.getD 0 0 := by
  obtain ⟨h2, _, hnd, _⟩ := hwf
  have hz : 0 < abc.key.length := by omega
  rw [List.getD_eq_getElem _ _ hd, List.getD_eq_getElem _ _ hz]
  intro heq
  exact h0 ((hnd.getElem_inj_iff).mp heq)

theorem indexAt_key_zero (abc : Alphabet) (hwf : abc.WellFormed) :
    abc.indexAt (abc.key.getD 0 0) = 0 :=
  hwf.2.2.2.2.1 0 (lt_of_lt_of_le (by decide) hwf.1)

theorem indexAt_ne_zero (abc : Alphabet) (hwf : abc.WellFormed) (ch : Nat) (hch : ch ∈ abc.key)
    (hne : ch ≠ abc.key.getD 0 0) : abc.indexAt ch ≠ 0 := by
  obtain ⟨i, hi, rfl⟩ := List.getElem_of_mem hch
  have hinv := hwf.2.2.2.2.1 i hi
  rw [List.getD_eq_getElem _ _ hi] at hinv
  rw [hinv]
  rintro rfl
  exact hne (by rw [List.getD_eq_getElem _ _ hi])

theorem toDigits_lt (abc : Alphabet) (hwf : abc.WellFormed) (text : List Nat) :
    ∀ x ∈ abc.toDigits text, x < abc.key.length := by
  obtain ⟨h2, hle, hnd, hascii, hinv, hidx, hef, het, hdf, hdt, hefl, hetl, hdfl, hdtl⟩ := hwf
  intro x hx
  simp only [Alphabet.toDigits, List.mem_map] at hx
  obtain ⟨ch, _, rfl⟩ := hx
  unfold Alphabet.indexAt
  cases hlook : abc.index.lookup ch with
  | none => simp; omega
  | some v =>
    simp only [Option.getD_some]
    exact hidx _ (mem_of_lookup _ _ _ hlook)

theorem encodeDigits_leading (cid : CodecId) (abc : Alphabet) (hwf : abc.WellFormed)
    (digits : List Nat) (r : Encoded) (h : (cid.NewCodec abc).encodeDigits digits = .ok r) :
    leadingCount (abc.key.getD 0 0) r.text = countLeadingZeros digits := by
  unfold Codec.encodeDigits at h
  rw [NewCodec_abc] at h
  split at h
  · cases h
  · rename_i c hc
    split at h
    · cases h
    · rename_i text htext
      cases h
      simp only
      have hwf2 := hwf
      obtain ⟨h2, hle, hnd, hascii, hinv, hidx, hef, het, hdf, hdt, hefl, hetl, hdfl, hdtl⟩ :=
        hwf2
      obtain ⟨hcount, _⟩ := codeDigits_leading cid abc abc.encode_direction
        (by rw [het]; omega) (by rw [het]; exact hle) digits c hc
      have hlt := toChars_digits_lt abc c.result text htext
      have hmap := toChars_ok abc hascii c.result hlt
      rw [htext] at hmap
      cases hmap
      rw [← hcount]
      exact leadingCount_map (fun d => abc.key.getD d 0) c.result
        (fun d hd hne => key_getD_ne abc hwf d (hlt d hd) hne)

theorem Encode_eq_encodeDigits (cid : CodecId) (abc : Alphabet) (b : List Nat) :
    ((cid.NewCodec abc).Encode b).map Encoded.text =
      ((cid.NewCodec abc).encodeDigits b).map Encoded.text := by
  cases cid
  · unfold Codec.Encode
    rw [NewCodec_cloneBuffer_Loop]
    simp only [Bool.not_true, Bool.false_eq_true, if_false, CopyBytes_clone]
    cases Codec.encodeDigits _ b <;> rfl
  · unfold Codec.Encode
    rw [NewCodec_cloneBuffer_BigInt]
    simp only [Bool.not_false, if_true]

theorem Encode_leading (cid : CodecId) (abc : Alphabet) (hwf : abc.WellFormed)
    (b : List Nat) (r : Encoded) (h : (cid.NewCodec abc).Encode b = .ok r) :
    leadingCount (abc.key.getD 0 0) r.text = countLeadingZeros b := by
  have h1 := Encode_eq_encodeDigits cid abc b
  rw [h] at h1
  cases h2 : (cid.NewCodec abc).encodeDigits b with
  | error e => rw [h2] at h1; cases h1
  | ok r2 =>
    rw [h2] at h1
    have : r.text = r2.text := by simpa [Except.map] using h1
    rw [this]
    exact encodeDigits_leading cid abc hwf b r2 h2

theorem Decode_leading (cid : CodecId) (abc : Alphabet) (hwf : abc.WellFormed)
    (text : List Nat) (htext : ∀ ch ∈ text, ch ∈ abc.key) (r : List Nat)
    (h : (cid.NewCodec abc).Decode text = .ok r) :
    countLeadingZeros r = leadingCount (abc.key.getD 0 0) text := by
  unfold Codec.Decode at h
  rw [NewCodec_abc] at h
  split at h
  · cases h
  · rename_i c hc
    cases h
    have hto : abc.decode_direction.to_base = 256 := hwf.2.2.2.2.2.2.2.2.2.1
    obtain ⟨hcount, _⟩ := codeDigits_leading cid abc abc.decode_direction
      (by rw [hto]; omega) (by rw [hto]) _ c hc
    rw [hcount]
    exact countLeadingZeros_map abc.indexAt _ text (indexAt_key_zero abc hwf)
      (fun ch hch hne => indexAt_ne_zero abc hwf ch (htext ch hch) hne)

theorem Encode_Loop_ok (abc : Alphabet) (hwf : abc.WellFormed) (b : List Nat) :
    ∃ r, (CodecId.Loop.NewCodec abc).Encode b = .ok r := by
  obtain ⟨h2, hle, hnd, hascii, hinv, hidx, hef, hto, hdf, hdt, hefl, hetl, hdfl, hdtl⟩ := hwf
  have h0 : 0 < abc.encode_direction.to_base := by rw [hto]; omega
  have h256 : abc.encode_direction.to_base ≤ 256 := by rw [hto]; exact hle
  obtain ⟨c, hc⟩ := codeDigits_Loop_ok abc abc.encode_direction h0 h256 hefl.le hetl b
  obtain ⟨_, hlt⟩ := codeDigits_leading .Loop abc abc.encode_direction h0 h256 b c hc
  have hchars := toChars_ok abc hascii c.result (fun d hd => hto ▸ hlt d hd)
  refine ⟨⟨c.result.map (fun d => abc.key.getD d 0), b⟩, ?_⟩
  unfold Codec.Encode
  rw [NewCodec_cloneBuffer_Loop]
  simp only [Bool.not_true, Bool.false_eq_true, if_false, CopyBytes_clone]
  unfold Codec.encodeDigits
  rw [NewCodec_abc, hc]
  simp only [hchars]

theorem Decode_Loop_ok (abc : Alphabet) (hwf : abc.WellFormed) (text : List Nat) :
    ∃ r, (CodecId.Loop.NewCodec abc).Decode text = .ok r := by
  obtain ⟨h2, hle, hnd, hascii, hinv, hidx, hef, het, hdf, hto, hefl, hetl, hdfl, hdtl⟩ := hwf
  obtain ⟨c, hc⟩ := codeDigits_Loop_ok abc abc.decode_direction (by rw [hto]; omega)
    (by rw [hto]) hdfl.le hdtl (abc.toDigits text)
  refine ⟨c.result, ?_⟩
  unfold Codec.Decode
  rw [NewCodec_abc, hc]

theorem encodeDigits_Loop_eq (abc : Alphabet) (hwf : abc.WellFormed) (b : List Nat)
    (hb : ∀ x ∈ b, x < 256) :
    ∃ r, (CodecId.Loop.NewCodec abc).encodeDigits b = .ok r ∧
      r.text = abc.chars (abc.encoded b) := by
  obtain ⟨h2, hle, hnd, hascii, hinv, hidx, hef, het, hdf, hdt, hefl, hetl, hdfl, hdtl⟩ := hwf
  have h0 : 0 < abc.encode_direction.to_base := by rw [het]; omega
  have hchars := toChars_ok abc hascii (abc.encoded b)
    (fun d hd => het ▸ converted_lt abc.encode_direction h0 _ b d hd)
  by_cases hne : b = []
  · subst hne
    refine ⟨⟨[], []⟩, ?_, ?_⟩
    · simp [Codec.encodeDigits, Codec.codeDigits, Alphabet.toChars]
    · simp [Alphabet.chars, Alphabet.encoded, converted_nil]
  · obtain ⟨sz, hsz, hnn, hest⟩ := approximateSize_estimate abc.encode_direction hefl.le hetl
      (b.length - countLeadingZeros b)
    obtain ⟨c, hc, hres⟩ := codeDigits_Loop_eq abc abc.encode_direction h0
      (by rw [het]; exact hle) (by rw [hef]) b (by rw [hef]; exact hb) hne sz hsz hnn
    rw [hest] at hres
    have hres2 : c.result = abc.encoded b := hres
    refine ⟨⟨abc.chars (abc.encoded b), c.digits⟩, ?_, rfl⟩
    unfold Codec.encodeDigits
    rw [NewCodec_abc, hc]
    simp only [hres2, hchars, Alphabet.chars]

theorem Encode_Loop_eq (abc : Alphabet) (hwf : abc.WellFormed) (b : List Nat)
    (hb : ∀ x ∈ b, x < 256) :
    (CodecId.Loop.NewCodec abc).Encode b = .ok ⟨abc.chars (abc.encoded b), b⟩ := by
  obtain ⟨r, hr, ht⟩ := encodeDigits_Loop_eq abc hwf b hb
  unfold Codec.Encode
  rw [NewCodec_cloneBuffer_Loop]
  simp only [Bool.not_true, Bool.false_eq_true, if_false, CopyBytes_clone, hr, ht]

theorem Decode_Loop_eq (abc : Alphabet) (hwf : abc.WellFormed) (text : List Nat) :
    (CodecId.Loop.NewCodec abc).Decode text = .ok (abc.decoded text) := by
  have hlt := toDigits_lt abc hwf text
  obtain ⟨h2, hle, hnd, hascii, hinv, hidx, hef, het, hdf, hdt, hefl, hetl, hdfl, hdtl⟩ := hwf
  by_cases hne : abc.toDigits text = []
  · have : (CodecId.Loop.NewCodec abc).codeDigits (abc.toDigits text) abc.decode_direction =
        .ok ⟨[], []⟩ := by rw [hne]; simp [Codec.codeDigits]
    unfold Codec.Decode
    rw [NewCodec_abc, this]
    simp [Alphabet.decoded, hne, converted_nil]
  · obtain ⟨sz, hsz, hnn, hest⟩ := approximateSize_estimate abc.decode_direction hdfl.le hdtl
      ((abc.toDigits text).length - countLeadingZeros (abc.toDigits text))
    obtain ⟨c, hc, hres⟩ := codeDigits_Loop_eq abc abc.decode_direction (by rw [hdt]; omega)
      (by rw [hdt]) (by rw [hdf]; exact hle) (abc.toDigits text) (by rw [hdf]; exact hlt) hne sz
      hsz hnn
    rw [hest] at hres
    unfold Codec.Decode
    rw [NewCodec_abc, hc]
    simp only [hres, Alphabet.decoded]

theorem EncodeCheck_BigInt_overflow (Sum256 : List Nat → List Nat) :
    (CodecId.BigInt.NewCodec (registryAlphabet 62)).EncodeCheck Sum256 (List.replicate 191 255) =
      .error .indexOutOfRange := by
  have hbuf := CopyBytes_check_any (List.replicate 191 255) (sha256x2 Sum256 (List.replicate 191 255))
  generalize hc : (sha256x2 Sum256 (List.replicate 191 255)).take 4 ++
    List.replicate (4 - (sha256x2 Sum256 (List.replicate 191 255)).length) 0 = c at hbuf
  have hclen : c.length = 4 := by
    rw [← hc]
    simp only [List.length_append, List.length_take, List.length_replicate]
    omega
  have hlz : countLeadingZeros (List.replicate 191 255 ++ c) = 0 :=
    countLeadingZeros_cons_ne 255 (List.replicate 190 255 ++ c) (by decide)
  have hdir : (registryAlphabet 62).encode_direction = Direction 256 62 := by decide!
  have hcd : (CodecId.BigInt.NewCodec (registryAlphabet 62)).codeDigits
      (List.replicate 191 255 ++ c) (Direction 256 62) = .error .indexOutOfRange := by
    apply codeDigits_BigInt_overflow (registryAlphabet 62) (Direction 256 62) (by decide)
      (by decide) _ (by
        intro h
        have := congrArg List.length h
        simp only [List.length_append, List.length_replicate, List.length_nil] at this
        omega) 262
    · rw [hlz]
      simp only [List.length_append, List.length_replicate, hclen]
      decide!
    · decide
    · rw [hlz, List.drop_zero, valueOf_append, hclen]
      have : (Direction 256 62).to_base ^ (0 + (262 : Int).toNat) ≤
          valueOf (Direction 256 62).from_base (List.replicate 191 255) *
            (Direction 256 62).from_base ^ 4 := by decide!
      exact le_trans this (Nat.le_add_right _ _)
  simp only [List.length_replicate] at hbuf
  unfold Codec.EncodeCheck
  simp only [List.length_replicate, hbuf]
  unfold Codec.encodeDigits
  rw [NewCodec_abc, hdir, hcd]

theorem EncodeCheck_Loop_eq (abc : Alphabet) (hwf : abc.WellFormed)
    (Sum256 : List Nat → List Nat) (hlen : ∀ d, (Sum256 d).length = 32)
    (hbyte : ∀ d, ∀ x ∈ Sum256 d, x < 256) (b : List Nat) (hb : ∀ x ∈ b, x < 256) :
    (CodecId.Loop.NewCodec abc).EncodeCheck Sum256 b =
      .ok ⟨abc.chars (abc.encoded (b ++ (sha256x2 Sum256 b).take 4)), b⟩ := by
  have hcopy := CopyBytes_check b (sha256x2 Sum256 b) (by rw [sha256x2, hlen]; omega)
  obtain ⟨r, hr, ht⟩ := encodeDigits_Loop_eq abc hwf (b ++ (sha256x2 Sum256 b).take 4) (by
    intro x hx
    rcases List.mem_append.mp hx with hx | hx
    · exact hb x hx
    · exact hbyte _ x (List.mem_of_mem_take hx))
  unfold Codec.EncodeCheck
  simp only [hcopy, hr, ht]

theorem DecodeCheck_payload (Sum256 : List Nat → List Nat) (cc : Codec) (text out : List Nat)
    (h : cc.DecodeCheck Sum256 text = .ok (.ok out)) :
    ∃ buffer, cc.Decode text = .ok buffer ∧ out = buffer.take (buffer.length - 4) := by
  unfold Codec.DecodeCheck at h
  split at h
  · cases h
  · rename_i buffer hb
    refine ⟨buffer, hb, ?_⟩
    split at h
    · cases h
    · simp only at h
      split at h
      · cases h
      · split at h
        · cases h
        · cases h; rfl

theorem ne_ok_of_length (x : Except Panic (List Nat)) (n : Nat) (b : List Nat)
    (h : x.map List.length = .ok n) (hn : n ≠ b.length) : x ≠ .ok b := by
  rintro rfl
  simp only [Except.map] at h
  cases h
  exact hn rfl

theorem DecodeCheck_ne_of_length (Sum256 : List Nat → List Nat) (cc : Codec)
    (text b : List Nat) (n : Nat) (h : (cc.Decode text).map List.length = .ok n)
    (hn : n - 4 ≠ b.length) : cc.DecodeCheck Sum256 text ≠ .ok (.ok b) := by
  intro hd
  obtain ⟨buffer, hb, hout⟩ := DecodeCheck_payload Sum256 cc text b hd
  rw [hb] at h
  simp only [Except.map] at h
  cases h
  apply hn
  rw [hout]
  simp

theorem Decode_length_base62 (cid : CodecId) :
    ((cid.NewCodec (registryAlphabet 62)).Decode
      ((registryAlphabet 62).chars ((registryAlphabet 62).encoded (List.replicate 195 255)))).map
      List.length = .ok 194 := by
  cases cid
  · rw [Decode_Loop_eq _ (registryAlphabet_wellFormed 62 (by decide)).2.1]
    decide!
  · decide!

/-- When the decoded buffer has at least 4 bytes, `DecodeCheck` returns the checksum error
if the first 4 bytes of the double hash of the payload differ from the last 4 bytes of the
buffer, and the payload otherwise. -/
theorem DecodeCheck_outcome (Sum256 : List Nat → List Nat)
    (hlen : ∀ d, (Sum256 d).length = 32) (cc : Codec) (text buffer : List Nat)
    (hd : cc.Decode text = .ok buffer) (h4 : 4 ≤ buffer.length) :
    cc.DecodeCheck Sum256 text =
      if (sha256x2 Sum256 (buffer.take (buffer.length - 4))).take 4 ≠
          buffer.drop (buffer.length - 4) then .ok (.error .checksum)
      else .ok (.ok (buffer.take (buffer.length - 4))) := by
  have hsha : ¬ (sha256x2 Sum256 (buffer.take (buffer.length - 4))).length < 4 := by
    rw [sha256x2, hlen]; omega
  unfold Codec.DecodeCheck
  simp only [hd]
  rw [if_neg (by omega), if_neg hsha]

/-! ### Canonical representations -/

theorem digitsOf_valueOf (base : Nat) (l : List Nat) (h : ∀ x ∈ l, x < base) :
    digitsOf base l.length (valueOf base l) = l := by
  induction l using List.reverseRecOn with
  | nil => rfl
  | append_singleton l a ih =>
    have ha : a < base := h a (by simp)
    have hv : valueOf base (l ++ [a]) = base * valueOf base l + a := by
      rw [valueOf_append, valueOf_cons, valueOf_nil]
      simp [Nat.mul_comm]
    rw [List.length_append, List.length_singleton, digitsOf_succ, hv, Nat.mul_add_div (by omega),
      Nat.div_eq_of_lt ha, Nat.add_zero, Nat.mul_add_mod, Nat.mod_eq_of_lt ha,
      ih (fun x hx => h x (by simp [hx]))]

theorem countLeadingZeros_stripZeros (l : List Nat) : countLeadingZeros (stripZeros l) = 0 := by
  induction l with
  | nil => rfl
  | cons d rest ih =>
    by_cases hd : d = 0
    · subst hd
      rw [stripZeros, countLeadingZeros_zero_cons, List.drop_succ_cons]
      exact ih
    · rw [stripZeros, countLeadingZeros_cons_ne d rest hd, List.drop_zero]
      exact countLeadingZeros_cons_ne d rest hd

theorem valueOf_stripZeros (base : Nat) (l : List Nat) :
    valueOf base (stripZeros l) = valueOf base l := by
  conv_rhs => rw [eq_zeros_append_stripZeros l]
  rw [valueOf_zeros_append]

theorem stripZeros_zeros_append (k : Nat) (l : List Nat) (h : countLeadingZeros l = 0) :
    stripZeros (List.replicate k 0 ++ l) = l := by
  rw [stripZeros, countLeadingZeros_zeros_append, h, Nat.add_zero, List.drop_left' (by simp)]

theorem stripZeros_length_le (l : List Nat) : (stripZeros l).length ≤ l.length := by
  rw [stripZeros, List.length_drop]
  omega

theorem stripZeros_lt (l : List Nat) (bound : Nat) (h : ∀ x ∈ l, x < bound) :
    ∀ x ∈ stripZeros l, x < bound :=
  fun x hx => h x (List.mem_of_mem_drop hx)

theorem length_le_of_valueOf_lt (base : Nat) (hb : 2 ≤ base) (l : List Nat)
    (h0 : countLeadingZeros l = 0) (n : Nat) (hv : valueOf base l < base ^ n) :
    l.length ≤ n := by
  cases l with
  | nil => simp
  | cons d rest =>
    have hd : d ≠ 0 := by
      rintro rfl
      rw [countLeadingZeros_zero_cons] at h0
      omega
    rw [valueOf_cons] at hv
    have h1 : base ^ rest.length ≤ d * base ^ rest.length :=
      Nat.le_mul_of_pos_left _ (Nat.pos_of_ne_zero hd)
    have h2 : base ^ rest.length < base ^ n := by omega
    have h3 : rest.length < n := (Nat.pow_lt_pow_iff_right (by omega)).mp h2
    simp only [List.length_cons]
    omega

theorem stripZeros_digitsOf_valueOf (base : Nat) (hb : 2 ≤ base) (l : List Nat)
    (hl : ∀ x ∈ l, x < base) (h0 : countLeadingZeros l = 0) (n : Nat)
    (hv : valueOf base l < base ^ n) :
    stripZeros (digitsOf base n (valueOf base l)) = l := by
  have hlen := length_le_of_valueOf_lt base hb l h0 n hv
  have hn : n = (n - l.length) + l.length := by omega
  rw [hn, digitsOf_of_lt base l.length (n - l.length) _ (valueOf_lt_pow base l hl),
    digitsOf_valueOf base l hl, stripZeros_zeros_append _ _ h0]

theorem converted_eq_of_fit (direction : CodecDirection) (size : Nat) (digits : List Nat) :
    countLeadingZeros (converted direction size digits) = countLeadingZeros digits ∧
    (converted direction size digits).drop (countLeadingZeros digits) =
      stripZeros (digitsOf direction.to_base size
        (valueOf direction.from_base (digits.drop (countLeadingZeros digits)))) ∧
    (converted direction size digits).length - countLeadingZeros digits ≤ size := by
  refine ⟨?_, ?_, ?_⟩
  · rw [converted, countLeadingZeros_zeros_append, countLeadingZeros_stripZeros, Nat.add_zero]
  · rw [converted, List.drop_left' (by simp)]
  · rw [converted, List.length_append, List.length_replicate, Nat.add_sub_cancel_left]
    exact le_trans (stripZeros_length_le _) (by rw [digitsOf_length])

theorem valueOf_converted (direction : CodecDirection) (size : Nat) (digits : List Nat)
    (hfit : valueOf direction.from_base (digits.drop (countLeadingZeros digits)) <
      direction.to_base ^ size) :
    valueOf direction.to_base ((converted direction size digits).drop
      (countLeadingZeros (converted direction size digits))) =
      valueOf direction.from_base (digits.drop (countLeadingZeros digits)) := by
  obtain ⟨h1, h2, _⟩ := converted_eq_of_fit direction size digits
  rw [h1, h2, valueOf_stripZeros, valueOf_digitsOf, Nat.mod_eq_of_lt hfit]

theorem converted_converted (dE dD : CodecDirection) (hft : dE.from_base = dD.to_base)
    (htf : dE.to_base = dD.from_base) (hD : 2 ≤ dD.to_base)
    (digits : List Nat) (hd : ∀ x ∈ digits, x < dE.from_base) (szE szD : Nat)
    (hfitE : valueOf dE.from_base (digits.drop (countLeadingZeros digits)) < dE.to_base ^ szE)
    (hfitD : valueOf dE.from_base (digits.drop (countLeadingZeros digits)) < dD.to_base ^ szD) :
    converted dD szD (converted dE szE digits) = digits := by
  obtain ⟨h1, _, _⟩ := converted_eq_of_fit dE szE digits
  have hval := valueOf_converted dE szE digits hfitE
  rw [htf] at hval
  have hstrip : stripZeros (digitsOf dD.to_base szD
      (valueOf dE.from_base (digits.drop (countLeadingZeros digits)))) = stripZeros digits := by
    rw [← hft] at hfitD hD ⊢
    exact stripZeros_digitsOf_valueOf dE.from_base hD (stripZeros digits)
      (stripZeros_lt digits _ hd) (countLeadingZeros_stripZeros digits) szD hfitD
  conv_lhs => rw [converted, hval, h1, hstrip]
  exact (eq_zeros_append_stripZeros digits).symm

theorem valueOf_eq_ofDigits (base : Nat) (l : List Nat) :
    valueOf base l = Nat.ofDigits base l.reverse := by
  induction l with
  | nil => rfl
  | cons d rest ih =>
    rw [valueOf_cons, List.reverse_cons, Nat.ofDigits_append, Nat.ofDigits_singleton, ← ih,
      List.length_reverse]
    ring

theorem countLeadingZeros_reverse_digits (base v : Nat) :
    countLeadingZeros (Nat.digits base v).reverse = 0 := by
  by_cases hv : v = 0
  · subst hv; simp [countLeadingZeros_nil]
  · have hne : Nat.digits base v ≠ [] := by
      rw [Ne, Nat.digits_eq_nil_iff_eq_zero]; exact hv
    have hlast := Nat.getLast_digit_ne_zero base hv
    obtain ⟨init, last, hil⟩ : ∃ init last, Nat.digits base v = init ++ [last] :=
      ⟨_, _, (List.dropLast_append_getLast hne).symm⟩
    have hl : (Nat.digits base v).getLast hne = last := by
      simp only [hil, List.getLast_append_singleton]
    rw [hl] at hlast
    rw [hil, List.reverse_append, List.reverse_singleton, List.singleton_append]
    exact countLeadingZeros_cons_ne last _ hlast

theorem stripZeros_digitsOf_eq_digits (base : Nat) (hb : 2 ≤ base) (n v : Nat)
    (h : v < base ^ n) : stripZeros (digitsOf base n v) = (Nat.digits base v).reverse := by
  have hval : valueOf base (Nat.digits base v).reverse = v := by
    rw [valueOf_eq_ofDigits, List.reverse_reverse, Nat.ofDigits_digits]
  have := stripZeros_digitsOf_valueOf base hb (Nat.digits base v).reverse
    (fun x hx => Nat.digits_lt_base hb (List.mem_reverse.mp hx))
    (countLeadingZeros_reverse_digits base v) n (by rw [hval]; exact h)
  rwa [hval] at this

/-! ### Conversions that fit the estimated buffer -/

/-- The BigInt strategy panics when the number does not fit the estimated buffer. -/
theorem codeDigits_BigInt_panic (abc : Alphabet) (direction : CodecDirection)
    (h0 : 0 < direction.to_base) (htb : direction.to_base ≤ 256) (digits : List Nat)
    (hne : digits ≠ []) (sz : Int)
    (hsz : direction.approximateSize (digits.length - countLeadingZeros digits) = .ok sz)
    (hnn : 0 ≤ sz)
    (hover : direction.to_base ^ sz.toNat ≤
      valueOf direction.from_base (digits.drop (countLeadingZeros digits))) :
    ∃ e, (CodecId.BigInt.NewCodec abc).codeDigits digits direction = .error e := by
  by_cases hN : direction.to_base ^ (countLeadingZeros digits + sz.toNat) ≤
      valueOf direction.from_base (digits.drop (countLeadingZeros digits))
  · exact ⟨_, codeDigits_BigInt_overflow abc direction h0 htb digits hne sz hsz hnn hN⟩
  · have hlt := Nat.lt_of_not_le hN
    obtain ⟨f2, hf2⟩ := (repackWithBigInt_loop_content direction.to_base h0 htb
      (countLeadingZeros digits + sz.toNat)
      (valueOf direction.from_base (digits.drop (countLeadingZeros digits)))
      (List.replicate (countLeadingZeros digits + sz.toNat) 0)
      (countLeadingZeros digits + sz.toNat) (by simp)
      (fun i hi => by simp [List.getD_eq_getElem?_getD, List.getElem?_replicate, hi])).1 hlt
    have hdrop : List.drop (countLeadingZeros digits + sz.toNat)
        (List.replicate (countLeadingZeros digits + sz.toNat) 0) = [] :=
      List.drop_eq_nil_of_le (by simp)
    rw [hdrop, List.append_nil] at hf2
    have hr : repackWithBigInt direction digits
        (List.replicate (countLeadingZeros digits + sz.toNat) 0) (countLeadingZeros digits) =
        .ok ⟨digits, digitsOf direction.to_base (countLeadingZeros digits + sz.toNat)
          (valueOf direction.from_base (digits.drop (countLeadingZeros digits))), f2⟩ := by
      unfold repackWithBigInt
      simp only [List.length_replicate]
      have : repackWithBigInt.acc direction.from_base (digits.drop (countLeadingZeros digits)) =
        valueOf direction.from_base (digits.drop (countLeadingZeros digits)) := rfl
      rw [this, hf2]
    have htr := (repackWithBigInt_trimmed direction h0 digits _ _ _ hr).1
    have hf := Trimmed_firstNonZero _ _ htr
    simp only at hf
    have hflt : f2 < countLeadingZeros digits := by
      by_contra hge
      have hge : countLeadingZeros digits ≤ f2 := by omega
      have hdec := eq_zeros_append_stripZeros (digitsOf direction.to_base
        (countLeadingZeros digits + sz.toNat)
        (valueOf direction.from_base (digits.drop (countLeadingZeros digits))))
      have hlenS : (stripZeros (digitsOf direction.to_base
          (countLeadingZeros digits + sz.toNat)
          (valueOf direction.from_base (digits.drop (countLeadingZeros digits))))).length =
          countLeadingZeros digits + sz.toNat - f2 := by
        rw [stripZeros, List.length_drop, digitsOf_length, ← hf]
      have hv1 := valueOf_stripZeros direction.to_base (digitsOf direction.to_base
        (countLeadingZeros digits + sz.toNat)
        (valueOf direction.from_base (digits.drop (countLeadingZeros digits))))
      rw [valueOf_digitsOf, Nat.mod_eq_of_lt hlt] at hv1
      have hv2 := valueOf_lt_pow direction.to_base _ (stripZeros_lt _ _
        (digitsOf_lt direction.to_base h0 (countLeadingZeros digits + sz.toNat)
          (valueOf direction.from_base (digits.drop (countLeadingZeros digits)))))
      rw [hv1, hlenS] at hv2
      have hv3 : direction.to_base ^ (countLeadingZeros digits + sz.toNat - f2) ≤
          direction.to_base ^ sz.toNat := Nat.pow_le_pow_right h0 (by omega)
      omega
    have hlen : ¬ digits.length = 0 := by
      intro h; exact hne (List.length_eq_zero.mp h)
    have hNN : ((countLeadingZeros digits : Int) + sz).toNat =
        countLeadingZeros digits + sz.toNat := by omega
    have hnn2 : ¬ ((countLeadingZeros digits : Int) + sz < 0) := by omega
    have hr2 : (CodecId.BigInt.NewCodec abc).repackDigits direction digits
        (List.replicate (countLeadingZeros digits + sz.toNat) 0) (countLeadingZeros digits) =
        .ok ⟨digits, digitsOf direction.to_base (countLeadingZeros digits + sz.toNat)
          (valueOf direction.from_base (digits.drop (countLeadingZeros digits))), f2⟩ := hr
    refine ⟨.sliceBounds, ?_⟩
    unfold Codec.codeDigits
    rw [if_neg hlen]
    simp only [hsz, if_neg hnn2, hNN, hr2]
    rw [if_neg (by omega), if_pos (Or.inl hflt)]

/-- Whenever the number fits the estimated buffer, `codeDigits` returns, under either
strategy, the leading zero digits followed by the digits of the number in `to_base`, most
significant first and without leading zeros. -/
theorem codeDigits_value_preserved (cid : CodecId) (abc : Alphabet)
    (direction : CodecDirection) (h2 : 2 ≤ direction.to_base) (htb : direction.to_base ≤ 256)
    (hfb : direction.from_base ≤ 256) (digits : List Nat)
    (hd : ∀ x ∈ digits, x < direction.from_base) (hne : digits ≠ []) (sz : Int)
    (hsz : direction.approximateSize (digits.length - countLeadingZeros digits) = .ok sz)
    (hnn : 0 ≤ sz)
    (hfit : valueOf direction.from_base (digits.drop (countLeadingZeros digits)) <
      direction.to_base ^ sz.toNat) :
    ∃ c, (cid.NewCodec abc).codeDigits digits direction = .ok c ∧
      c.result = List.replicate (countLeadingZeros digits) 0 ++
        (Nat.digits direction.to_base
          (valueOf direction.from_base (digits.drop (countLeadingZeros digits)))).reverse := by
  have hconv : converted direction sz.toNat digits =
      List.replicate (countLeadingZeros digits) 0 ++
        (Nat.digits direction.to_base
          (valueOf direction.from_base (digits.drop (countLeadingZeros digits)))).reverse := by
    rw [converted, stripZeros_digitsOf_eq_digits direction.to_base h2 _ _ hfit]
  cases cid with
  | Loop =>
    obtain ⟨c, hc, hres⟩ := codeDigits_Loop_eq abc direction (by omega) htb hfb digits hd hne sz
      hsz hnn
    exact ⟨c, hc, by rw [hres, hconv]⟩
  | BigInt =>
    exact ⟨_, codeDigits_BigInt_eq abc direction (by omega) htb digits hne sz hsz hnn hfit,
      hconv⟩

theorem toDigits_chars (abc : Alphabet) (hwf : abc.WellFormed) (e : List Nat)
    (he : ∀ x ∈ e, x < abc.key.length) : abc.toDigits (abc.chars e) = e := by
  obtain ⟨h2, hle, hnd, hascii, hinv, hidx, hef, het, hdf, hdt, hefl, hetl, hdfl, hdtl⟩ := hwf
  induction e with
  | nil => rfl
  | cons d rest ih =>
    simp only [Alphabet.toDigits, Alphabet.chars, List.map_cons] at ih ⊢
    rw [hinv d (he d (by simp)), ih (fun x hx => he x (by simp [hx]))]

theorem encodeDigits_eq_of_fit (cid : CodecId) (abc : Alphabet) (hwf : abc.WellFormed)
    (b : List Nat) (hb : ∀ x ∈ b, x < 256)
    (hfit : valueOf 256 (b.drop (countLeadingZeros b)) <
      abc.key.length ^ abc.encode_direction.estimate (b.length - countLeadingZeros b)) :
    ∃ r, (cid.NewCodec abc).encodeDigits b = .ok r ∧ r.text = abc.chars (abc.encoded b) := by
  cases cid with
  | Loop => exact encodeDigits_Loop_eq abc hwf b hb
  | BigInt =>
    obtain ⟨h2, hle, hnd, hascii, hinv, hidx, hef, het, hdf, hdt, hefl, hetl, hdfl, hdtl⟩ := hwf
    have h0 : 0 < abc.encode_direction.to_base := by rw [het]; omega
    have hchars := toChars_ok abc hascii (abc.encoded b)
      (fun d hd => het ▸ converted_lt abc.encode_direction h0 _ b d hd)
    by_cases hne : b = []
    · subst hne
      refine ⟨⟨[], []⟩, ?_, ?_⟩
      · simp [Codec.encodeDigits, Codec.codeDigits, Alphabet.toChars]
      · simp [Alphabet.chars, Alphabet.encoded, converted_nil]
    · obtain ⟨sz, hsz, hnn, hest⟩ := approximateSize_estimate abc.encode_direction hefl.le hetl
        (b.length - countLeadingZeros b)
      have hc := codeDigits_BigInt_eq abc abc.encode_direction h0 (by rw [het]; exact hle) b hne
        sz hsz hnn (by rw [hef, het, hest]; exact hfit)
      rw [hest] at hc
      refine ⟨⟨abc.chars (abc.encoded b), b⟩, ?_, rfl⟩
      unfold Codec.encodeDigits
      rw [NewCodec_abc, hc]
      have hres : converted abc.encode_direction
          (abc.encode_direction.estimate (b.length - countLeadingZeros b)) b = abc.encoded b := rfl
      simp only [hres, hchars, Alphabet.chars]

theorem Encode_eq_of_fit (cid : CodecId) (abc : Alphabet) (hwf : abc.WellFormed)
    (b : List Nat) (hb : ∀ x ∈ b, x < 256)
    (hfit : valueOf 256 (b.drop (countLeadingZeros b)) <
      abc.key.length ^ abc.encode_direction.estimate (b.length - countLeadingZeros b)) :
    ∃ r, (cid.NewCodec abc).Encode b = .ok r ∧ r.text = abc.chars (abc.encoded b) := by
  obtain ⟨r, hr, ht⟩ := encodeDigits_eq_of_fit cid abc hwf b hb hfit
  have h := Encode_eq_encodeDigits cid abc b
  rw [hr] at h
  cases hE : (cid.NewCodec abc).Encode b with
  | error e => rw [hE] at h; cases h
  | ok r2 =>
    rw [hE] at h
    refine ⟨r2, rfl, ?_⟩
    have : r2.text = r.text := by simpa [Except.map] using h
    rw [this, ht]

theorem Decode_eq_of_fit (cid : CodecId) (abc : Alphabet) (hwf : abc.WellFormed)
    (text : List Nat)
    (hfit : valueOf abc.key.length
        ((abc.toDigits text).drop (countLeadingZeros (abc.toDigits text))) <
      256 ^ abc.decode_direction.estimate
        ((abc.toDigits text).length - countLeadingZeros (abc.toDigits text))) :
    (cid.NewCodec abc).Decode text = .ok (abc.decoded text) := by
  cases cid with
  | Loop => exact Decode_Loop_eq abc hwf text
  | BigInt =>
    obtain ⟨h2, hle, hnd, hascii, hinv, hidx, hef, het, hdf, hdt, hefl, hetl, hdfl, hdtl⟩ := hwf
    by_cases hne : abc.toDigits text = []
    · have : (CodecId.BigInt.NewCodec abc).codeDigits (abc.toDigits text) abc.decode_direction =
          .ok ⟨[], []⟩ := by rw [hne]; simp [Codec.codeDigits]
      unfold Codec.Decode
      rw [NewCodec_abc, this]
      simp [Alphabet.decoded, hne, converted_nil]
    · obtain ⟨sz, hsz, hnn, hest⟩ := approximateSize_estimate abc.decode_direction hdfl.le hdtl
        ((abc.toDigits text).length - countLeadingZeros (abc.toDigits text))
      have hc := codeDigits_BigInt_eq abc abc.decode_direction (by rw [hdt]; omega)
        (by rw [hdt]) (abc.toDigits text) hne sz hsz hnn (by rw [hdf, hdt, hest]; exact hfit)
      rw [hest] at hc
      unfold Codec.Decode
      rw [NewCodec_abc, hc]
      rfl

theorem Encode_BigInt_text (abc : Alphabet) (hwf : abc.WellFormed) (b : List Nat)
    (hb : ∀ x ∈ b, x < 256) (r : Encoded)
    (h : (CodecId.BigInt.NewCodec abc).Encode b = .ok r) :
    r.text = abc.chars (abc.encoded b) := by
  by_cases hfit : valueOf 256 (b.drop (countLeadingZeros b)) <
      abc.key.length ^ abc.encode_direction.estimate (b.length - countLeadingZeros b)
  · obtain ⟨r2, hr2, ht⟩ := Encode_eq_of_fit .BigInt abc hwf b hb hfit
    rw [h] at hr2
    cases hr2
    exact ht
  · exfalso
    obtain ⟨h2, hle, hnd, hascii, hinv, hidx, hef, het, hdf, hdt, hefl, hetl, hdfl, hdtl⟩ := hwf
    have hne : b ≠ [] := by
      rintro rfl
      apply hfit
      simp only [countLeadingZeros_nil, List.drop_nil, valueOf_nil]
      exact Nat.pos_pow_of_pos _ (by omega)
    obtain ⟨sz, hsz, hnn, hest⟩ := approximateSize_estimate abc.encode_direction hefl.le hetl
      (b.length - countLeadingZeros b)
    obtain ⟨e, he⟩ := codeDigits_BigInt_panic abc abc.encode_direction
      (by rw [het]; omega) (by rw [het]; exact hle) b hne sz hsz hnn
      (by rw [hef, het, hest]; exact Nat.le_of_not_lt hfit)
    unfold Codec.Encode at h
    rw [NewCodec_cloneBuffer_BigInt] at h
    simp only [Bool.not_false, if_true] at h
    unfold Codec.encodeDigits at h
    rw [NewCodec_abc, he] at h
    cases h

theorem Decode_BigInt_result (abc : Alphabet) (hwf : abc.WellFormed) (text r : List Nat)
    (h : (CodecId.BigInt.NewCodec abc).Decode text = .ok r) : r = abc.decoded text := by
  by_cases hfit : valueOf abc.key.length
        ((abc.toDigits text).drop (countLeadingZeros (abc.toDigits text))) <
      256 ^ abc.decode_direction.estimate
        ((abc.toDigits text).length - countLeadingZeros (abc.toDigits text))
  · rw [Decode_eq_of_fit .BigInt abc hwf text hfit] at h
    cases h
    rfl
  · exfalso
    obtain ⟨h2, hle, hnd, hascii, hinv, hidx, hef, het, hdf, hdt, hefl, hetl, hdfl, hdtl⟩ := hwf
    have hne : abc.toDigits text ≠ [] := by
      intro hnil
      apply hfit
      rw [hnil]
      simp only [countLeadingZeros_nil, List.drop_nil, valueOf_nil]
      exact Nat.pos_pow_of_pos _ (by omega)
    obtain ⟨sz, hsz, hnn, hest⟩ := approximateSize_estimate abc.decode_direction hdfl.le hdtl
      ((abc.toDigits text).length - countLeadingZeros (abc.toDigits text))
    obtain ⟨e, he⟩ := codeDigits_BigInt_panic abc abc.decode_direction
      (by rw [hdt]; omega) (by rw [hdt]) (abc.toDigits text) hne sz hsz hnn
      (by rw [hdf, hdt, hest]; exact Nat.le_of_not_lt hfit)
    unfold Codec.Decode at h
    rw [NewCodec_abc, he] at h
    cases h

/-- Whenever the BigInt codec returns from `Encode` or `Decode`, the Loop codec returns the
same result. -/
theorem strategies_agree (abc : Alphabet) (hwf : abc.WellFormed) (b text : List Nat)
    (hb : ∀ x ∈ b, x < 256) :
    (∀ r, (CodecId.BigInt.NewCodec abc).Encode b = .ok r →
      (CodecId.Loop.NewCodec abc).Encode b = .ok r) ∧
    (∀ r, (CodecId.BigInt.NewCodec abc).Decode text = .ok r →
      (CodecId.Loop.NewCodec abc).Decode text = .ok r) := by
  constructor
  · intro r h
    have ht := Encode_BigInt_text abc hwf b hb r h
    have hbuf : r.buffer = b := by
      unfold Codec.Encode at h
      rw [NewCodec_cloneBuffer_BigInt] at h
      simp only [Bool.not_false, if_true] at h
      unfold Codec.encodeDigits at h
      split at h
      · cases h
      · rename_i c hc
        split at h
        · cases h
        · cases h
          simp only
          unfold Codec.codeDigits at hc
          split at hc
          · cases hc; rfl
          · simp only at hc
            split at hc
            · cases hc
            · split at hc
              · cases hc
              · split at hc
                · cases hc
                · rename_i rp hrp
                  have hfrom : rp.fromDigits = b := by
                    have hrp2 : repackWithBigInt abc.encode_direction b _ _ = .ok rp := hrp
                    unfold repackWithBigInt at hrp2
                    split at hrp2
                    · cases hrp2
                    · cases hrp2; rfl
                  split at hc
                  · cases hc; exact hfrom
                  · split at hc
                    · cases hc
                    · cases hc; exact hfrom
    rw [Encode_Loop_eq abc hwf b hb]
    cases r
    simp only at ht hbuf
    rw [ht, hbuf]
  · intro r h
    rw [Decode_Loop_eq abc hwf text, Decode_BigInt_result abc hwf text r h]

/-- Whenever the number fits the two estimated buffers, `Decode` of `Encode` is the input,
for every pair of strategies. -/
theorem roundtrip_of_fit (abc : Alphabet) (hwf : abc.WellFormed) (b : List Nat)
    (hb : ∀ x ∈ b, x < 256)
    (hfitE : valueOf 256 (b.drop (countLeadingZeros b)) <
      abc.key.length ^ abc.encode_direction.estimate (b.length - countLeadingZeros b))
    (hfitD : valueOf 256 (b.drop (countLeadingZeros b)) <
      256 ^ abc.decode_direction.estimate ((abc.encoded b).length - countLeadingZeros b))
    (s1 s2 : CodecId) :
    ∃ r, (s1.NewCodec abc).Encode b = .ok r ∧ (s2.NewCodec abc).Decode r.text = .ok b := by
  obtain ⟨r, hr, ht⟩ := Encode_eq_of_fit s1 abc hwf b hb hfitE
  refine ⟨r, hr, ?_⟩
  have hwf2 := hwf
  obtain ⟨h2, hle, hnd, hascii, hinv, hidx, hef, het, hdf, hdt, hefl, hetl, hdfl, hdtl⟩ := hwf2
  have h0 : 0 < abc.encode_direction.to_base := by rw [het]; omega
  have hdig : abc.toDigits (abc.chars (abc.encoded b)) = abc.encoded b :=
    toDigits_chars abc hwf _ (fun d hd => het ▸ converted_lt abc.encode_direction h0 _ b d hd)
  have hfitE2 : valueOf abc.encode_direction.from_base (b.drop (countLeadingZeros b)) <
      abc.encode_direction.to_base ^
        abc.encode_direction.estimate (b.length - countLeadingZeros b) := by
    rw [hef, het]; exact hfitE
  have hclz : countLeadingZeros (abc.encoded b) = countLeadingZeros b :=
    (converted_eq_of_fit abc.encode_direction _ b).1
  have hval : valueOf abc.key.length
      ((abc.encoded b).drop (countLeadingZeros (abc.encoded b))) =
      valueOf 256 (b.drop (countLeadingZeros b)) := by
    have := valueOf_converted abc.encode_direction _ b hfitE2
    rw [het, hef] at this
    exact this
  rw [ht, Decode_eq_of_fit s2 abc hwf _ (by rw [hdig, hval, hclz]; exact hfitD)]
  congr 1
  unfold Alphabet.decoded
  rw [hdig, hclz]
  exact converted_converted abc.encode_direction abc.decode_direction (by rw [hef, hdt])
    (by rw [het, hdf]) (by rw [hdt]; omega) b (by rw [hef]; exact hb) _ _ hfitE2
    (by rw [hef, hdt]; exact hfitD)

theorem roundtrip_bounded (abc : Alphabet) (hwf : abc.WellFormed) (L B : Nat)
    (h1 : ∀ n, n ≤ L → 256 ^ n ≤ abc.key.length ^ abc.encode_direction.estimate n)
    (h2 : ∀ n, n ≤ L → abc.encode_direction.estimate n ≤ B)
    (h3 : ∀ m, m ≤ B → abc.key.length ^ m ≤ 256 ^ abc.decode_direction.estimate m)
    (b : List Nat) (hb : ∀ x ∈ b, x < 256) (hlen : b.length ≤ L) (s1 s2 : CodecId) :
    ∃ r, (s1.NewCodec abc).Encode b = .ok r ∧ (s2.NewCodec abc).Decode r.text = .ok b := by
  have hwf2 := hwf
  obtain ⟨h2', hle, hnd, hascii, hinv, hidx, hef, het, hdf, hdt, hefl, hetl, hdfl, hdtl⟩ := hwf2
  have hV : valueOf 256 (b.drop (countLeadingZeros b)) <
      256 ^ (b.length - countLeadingZeros b) := by
    have := valueOf_lt_pow 256 (b.drop (countLeadingZeros b))
      (fun x hx => hb x (List.mem_of_mem_drop hx))
    rwa [List.length_drop] at this
  have hfitE : valueOf 256 (b.drop (countLeadingZeros b)) <
      abc.key.length ^ abc.encode_direction.estimate (b.length - countLeadingZeros b) :=
    lt_of_lt_of_le hV (h1 _ (by omega))
  have hfitE2 : valueOf abc.encode_direction.from_base (b.drop (countLeadingZeros b)) <
      abc.encode_direction.to_base ^
        abc.encode_direction.estimate (b.length - countLeadingZeros b) := by
    rw [hef, het]; exact hfitE
  obtain ⟨c1, c2, c3⟩ := converted_eq_of_fit abc.encode_direction
    (abc.encode_direction.estimate (b.length - countLeadingZeros b)) b
  have hval := valueOf_converted abc.encode_direction _ b hfitE2
  rw [c1, het, hef] at hval
  have h0 : 0 < abc.encode_direction.to_base := by rw [het]; omega
  have hlt := valueOf_lt_pow abc.key.length
    ((abc.encoded b).drop (countLeadingZeros b))
    (fun x hx => het ▸ converted_lt abc.encode_direction h0 _ b x (List.mem_of_mem_drop hx))
  rw [List.length_drop] at hlt
  have hfitD : valueOf 256 (b.drop (countLeadingZeros b)) <
      256 ^ abc.decode_direction.estimate ((abc.encoded b).length - countLeadingZeros b) := by
    rw [← hval]
    exact lt_of_lt_of_le hlt (h3 _ (le_trans c3 (h2 _ (by omega))))
  exact roundtrip_of_fit abc hwf b hb hfitE hfitD s1 s2

theorem registry_estimates (id : Int) (hid : id ∈ registryIds) :
    (∀ n, n ≤ 194 → 256 ^ n ≤
      (registryAlphabet id).key.length ^ (registryAlphabet id).encode_direction.estimate n) ∧
    (∀ n, n ≤ 194 → (registryAlphabet id).encode_direction.estimate n ≤
      (registryAlphabet id).encode_direction.estimate 194) ∧
    (∀ m, m ≤ (registryAlphabet id).encode_direction.estimate 194 →
      (registryAlphabet id).key.length ^ m ≤
        256 ^ (registryAlphabet id).decode_direction.estimate m) := by
  simp only [registryIds, List.mem_cons, List.mem_singleton, List.not_mem_nil, or_false] at hid
  rcases hid with rfl | rfl | rfl | rfl | rfl | rfl | rfl | rfl | rfl | rfl <;> decide!

/-- For every registry alphabet, every pair of strategies and every byte sequence of at most
194 bytes, `Encode` returns a text and `Decode` of that text is the byte sequence. -/
theorem roundtrip_short (id : Int) (hid : id ∈ registryIds) (s1 s2 : CodecId) (b : List Nat)
    (hb : ∀ x ∈ b, x < 256) (hlen : b.length ≤ 194) :
    ∃ r, (s1.NewCodec (registryAlphabet id)).Encode b = .ok r ∧
      (s2.NewCodec (registryAlphabet id)).Decode r.text = .ok b := by
  obtain ⟨h1, h2, h3⟩ := registry_estimates id hid
  exact roundtrip_bounded _ (registryAlphabet_wellFormed id hid).2.1 194 _ h1 h2 h3 b hb hlen
    s1 s2

/-- For every registry alphabet, every pair of strategies, every hash function with 32-byte
digests and every byte sequence of at most 190 bytes, `DecodeCheck` of `EncodeCheck` returns
the byte sequence and no error. -/
theorem checksum_roundtrip_short (id : Int) (hid : id ∈ registryIds) (s1 s2 : CodecId)
    (Sum256 : List Nat → List Nat) (hlen32 : ∀ d, (Sum256 d).length = 32)
    (hbyte : ∀ d, ∀ x ∈ Sum256 d, x < 256) (b : List Nat) (hb : ∀ x ∈ b, x < 256)
    (hlen : b.length ≤ 190) :
    ∃ r, (s1.NewCodec (registryAlphabet id)).EncodeCheck Sum256 b = .ok r ∧
      (s2.NewCodec (registryAlphabet id)).DecodeCheck Sum256 r.text = .ok (.ok b) := by
  have hsha : (sha256x2 Sum256 b).length = 32 := hlen32 _
  have hc4 : ((sha256x2 Sum256 b).take 4).length = 4 := by
    rw [List.length_take, hsha]; rfl
  obtain ⟨r, hr, hd⟩ := roundtrip_short id hid s1 s2 (b ++ (sha256x2 Sum256 b).take 4)
    (by
      intro x hx
      rcases List.mem_append.mp hx with hx | hx
      · exact hb x hx
      · exact hbyte _ x (List.mem_of_mem_take hx))
    (by rw [List.length_append, hc4]; omega)
  have hcopy := CopyBytes_check b (sha256x2 Sum256 b) (by omega)
  have hE : (s1.NewCodec (registryAlphabet id)).EncodeCheck Sum256 b = .ok ⟨r.text, b⟩ := by
    have h1 := Encode_eq_encodeDigits s1 (registryAlphabet id) (b ++ (sha256x2 Sum256 b).take 4)
    rw [hr] at h1
    unfold Codec.EncodeCheck
    simp only [hcopy]
    cases h2 : (s1.NewCodec (registryAlphabet id)).encodeDigits
        (b ++ (sha256x2 Sum256 b).take 4) with
    | error e => rw [h2] at h1; cases h1
    | ok r2 =>
      rw [h2] at h1
      have : r.text = r2.text := by simpa [Except.map] using h1
      simp only [this]
  refine ⟨_, hE, ?_⟩
  unfold Codec.DecodeCheck
  simp only [hd]
  have hl : (b ++ (sha256x2 Sum256 b).take 4).length - 4 = b.length := by
    rw [List.length_append, hc4]; omega
  have hnl : ¬ (b ++ (sha256x2 Sum256 b).take 4).length < 4 := by
    rw [List.length_append, hc4]; omega
  rw [if_neg hnl, hl, List.take_left' rfl, List.drop_left' rfl, if_neg (by rw [hsha]; omega),
    if_neg (by simp)]

/-! ### The table of logarithms -/

theorem logInt_pos (base : Nat) (h2 : 2 ≤ base) (h256 : base ≤ 256) : 0 < logInt base := by
  have h : ∀ b, b < 257 → 2 ≤ b → 0 < logInt b := by decide!
  exact h base (by omega) h2

theorem logInt_nonneg (base : Nat) (h1 : 1 ≤ base) (h256 : base ≤ 256) : 0 ≤ logInt base := by
  have h : ∀ b, b < 257 → 1 ≤ b → 0 ≤ logInt b := by decide!
  exact h base (by omega) h1

/-! ### The index of an alphabet -/

theorem Alphabets_lookup_none (id : Int) (hid : id ∉ registryIds) : AlphabetsAt id = [] := by
  simp only [registryIds, List.mem_cons, List.mem_singleton, List.not_mem_nil, or_false,
    not_or] at hid
  obtain ⟨h1, h2, h3, h4, h5, h6, h7, h8, h9, h10⟩ := hid
  have e1 : (id == 2) = false := by simpa using h1
  have e2 : (id == 8) = false := by simpa using h2
  have e3 : (id == 11) = false := by simpa using h3
  have e4 : (id == 16) = false := by simpa using h4
  have e5 : (id == 32) = false := by simpa using h5
  have e6 : (id == 36) = false := by simpa using h6
  have e7 : (id == 58) = false := by simpa using h7
  have e8 : (id == 62) = false := by simpa using h8
  have e9 : (id == 64) = false := by simpa using h9
  have e10 : (id == 67) = false := by simpa using h10
  simp only [AlphabetsAt, Alphabets, List.lookup, e1, e2, e3, e4, e5, e6, e7, e8, e9, e10]

theorem GetAlphabet_loop_index (rest : List Nat) :
    ∀ (i : Nat) (key : List Nat) (index : List (Nat × Nat)) (key1 : List Nat)
      (index1 : List (Nat × Nat)),
    GetAlphabet.loop rest i key index = .ok (key1, index1) →
    (∀ ch, ch ∉ rest → index1.lookup ch = index.lookup ch) ∧
    (∀ j, j < rest.length → rest.getD j 0 ∉ rest.drop (j + 1) →
      index1.lookup (rest.getD j 0) = some ((i + j) % 256)) ∧
    (∀ ch, ch ∈ rest → ∃ j, j < rest.length ∧ index1.lookup ch = some ((i + j) % 256)) ∧
    (∀ p ∈ index1, p ∈ index ∨ ∃ j, j < rest.length ∧ p.2 = (i + j) % 256) := by
  induction rest with
  | nil =>
    intro i key index key1 index1 h
    simp only [GetAlphabet.loop] at h
    cases h
    exact ⟨fun _ _ => rfl, fun j hj => absurd hj (by simp), fun ch hch => absurd hch (by simp),
      fun p hp => Or.inl hp⟩
  | cons c rest ih =>
    intro i key index key1 index1 h
    unfold GetAlphabet.loop at h
    by_cases hc : c < 128
    · rw [if_pos hc] at h
      obtain ⟨a1, a2, a3, a4⟩ := ih _ _ _ _ _ h
      have hcons : ∀ ch, ch ≠ c →
          List.lookup ch ((c, i % 256) :: index) = List.lookup ch index := by
        intro ch hne
        rw [List.lookup_cons]
        have : (ch == c) = false := by simpa using hne
        simp only [this]
      have hself : List.lookup c ((c, i % 256) :: index) = some (i % 256) := by
        rw [List.lookup_cons]; simp
      refine ⟨?_, ?_, ?_, ?_⟩
      · intro ch hch
        simp only [List.mem_cons, not_or] at hch
        rw [a1 ch hch.2, hcons ch hch.1]
      · intro j hj hnot
        cases j with
        | zero =>
          simp only [List.getD_cons_zero, Nat.zero_add, List.drop_succ_cons, List.drop_zero] at hnot ⊢
          rw [a1 c hnot, hself, Nat.add_zero]
        | succ j =>
          simp only [List.getD_cons_succ, List.drop_succ_cons] at hnot ⊢
          have := a2 j (by simpa using hj) hnot
          rw [this, show i + 1 + j = i + (j + 1) by omega]
      · intro ch hch
        by_cases hin : ch ∈ rest
        · obtain ⟨j, hj, hl⟩ := a3 ch hin
          exact ⟨j + 1, by simpa using hj, by rw [hl, show i + 1 + j = i + (j + 1) by omega]⟩
        · have hce : ch = c := by
            simp only [List.mem_cons] at hch
            rcases hch with h1 | h1
            · exact h1
            · exact absurd h1 hin
          subst hce
          exact ⟨0, by simp, by rw [a1 ch hin, hself, Nat.add_zero]⟩
      · intro p hp
        rcases a4 p hp with h1 | ⟨j, hj, hl⟩
        · simp only [List.mem_cons] at h1
          rcases h1 with h1 | h1
          · exact Or.inr ⟨0, by simp, by rw [h1, Nat.add_zero]⟩
          · exact Or.inl h1
        · exact Or.inr ⟨j + 1, by simpa using hj, by rw [hl, show i + 1 + j = i + (j + 1) by omega]⟩
    · rw [if_neg hc] at h
      cases h

theorem GetAlphabet_ok_cases (s : List Nat) (abc : Alphabet)
    (h : GetAlphabet alphabet_cache s = .ok abc) :
    (∀ ch ∈ s, ch < 128) ∧ abc.key = s ∧
    abc.encode_direction = Direction 256 s.length ∧
    abc.decode_direction = Direction s.length 256 ∧
    GetAlphabet.loop s 0 (List.replicate s.length 0) [] = .ok (abc.key, abc.index) := by
  have hcache : (alphabet_cache.lookup s) = none := rfl
  by_cases hex : ∃ x ∈ s, 128 ≤ x
  · have herr := GetAlphabet_loop_error s 0 (List.replicate s.length 0) [] hex
    simp only [GetAlphabet, hcache, herr] at h
    cases h
  · have hall : ∀ x ∈ s, x < 128 := by
      intro x hx; by_contra hx2; exact hex ⟨x, hx, by omega⟩
    obtain ⟨index1, hok⟩ := GetAlphabet_loop_ok s 0 (List.replicate s.length 0) [] hall (by simp)
    simp only [GetAlphabet, hcache, hok, List.take_zero, List.nil_append] at h
    cases h
    exact ⟨hall, rfl, rfl, rfl, by simpa using hok⟩

theorem length_le_of_nodup_lt (s : List Nat) (n : Nat) (hn : s.Nodup) (hlt : ∀ ch ∈ s, ch < n) :
    s.length ≤ n := by
  have hsub : s ⊆ List.range n := fun x hx => List.mem_range.mpr (hlt x hx)
  have := (List.subperm_of_subset hn hsub).length_le
  simpa using this

theorem getD_not_mem_drop (s : List Nat) (hn : s.Nodup) (j : Nat) (hj : j < s.length) :
    s.getD j 0 ∉ s.drop (j + 1) := by
  intro hmem
  obtain ⟨k, hk, hk2⟩ := List.getElem_of_mem hmem
  rw [List.getElem_drop] at hk2
  have hk' : j + 1 + k < s.length := by simp at hk; omega
  have hj2 : s.getD j 0 = s[j] := by simp [List.getD_eq_getElem?_getD, hj]
  rw [hj2] at hk2
  have := (List.Nodup.getElem_inj_iff hn).mp hk2
  omega

/-- What `GetAlphabet` builds from a string. -/
theorem GetAlphabet_index (s : List Nat) (abc : Alphabet)
    (h : GetAlphabet alphabet_cache s = .ok abc) :
    abc.key = s ∧
    (∀ ch, ch ∉ abc.key → abc.index.lookup ch = none) ∧
    (∀ ch, ch ∈ abc.key → ∃ j, j < abc.key.length ∧ abc.index.lookup ch = some (j % 256)) ∧
    (∀ j, j < abc.key.length → abc.key.getD j 0 ∉ abc.key.drop (j + 1) →
      abc.indexAt (abc.key.getD j 0) = j % 256) ∧
    (∀ p ∈ abc.index, ∃ j, j < abc.key.length ∧ p.2 = j % 256) := by
  obtain ⟨_, hkey, _, _, hloop⟩ := GetAlphabet_ok_cases s abc h
  obtain ⟨a1, a2, a3, a4⟩ := GetAlphabet_loop_index s 0 _ [] _ _ hloop
  rw [hkey]
  refine ⟨rfl, fun ch hch => by rw [a1 ch hch]; rfl, ?_, ?_, ?_⟩
  · intro ch hch
    obtain ⟨j, hj, hl⟩ := a3 ch hch
    exact ⟨j, hj, by rw [hl, Nat.zero_add]⟩
  · intro j hj hnot
    unfold Alphabet.indexAt
    rw [a2 j hj hnot, Nat.zero_add]
    rfl
  · intro p hp
    rcases a4 p hp with h1 | ⟨j, hj, hl⟩
    · simp at h1
    · exact ⟨j, hj, by rw [hl, Nat.zero_add]⟩

theorem GetAlphabet_wellFormed (s : List Nat) (abc : Alphabet)
    (h : GetAlphabet alphabet_cache s = .ok abc) (hn : s.Nodup) (h2 : 2 ≤ s.length) :
    abc.WellFormed := by
  obtain ⟨hall, hkey, he, hd, _⟩ := GetAlphabet_ok_cases s abc h
  obtain ⟨_, b1, b2, b3, b4⟩ := GetAlphabet_index s abc h
  have hlen : s.length ≤ 128 := length_le_of_nodup_lt s 128 hn hall
  rw [hkey] at b3 b4
  unfold Alphabet.WellFormed
  rw [hkey, he, hd]
  refine ⟨h2, by omega, hn, hall, ?_, ?_, rfl, rfl, rfl, rfl,
    show 0 < logInt 256 by decide,
    logInt_pos _ h2 (by omega), logInt_pos _ h2 (by omega), show 0 < logInt 256 by decide⟩
  · intro i hi
    rw [b3 i hi (getD_not_mem_drop s hn i hi)]
    exact Nat.mod_eq_of_lt (by omega)
  · intro p hp
    obtain ⟨j, hj, hl⟩ := b4 p hp
    rw [hl, Nat.mod_eq_of_lt (by omega)]
    exact hj

theorem index_isSome (s : List Nat) (abc : Alphabet)
    (h : GetAlphabet alphabet_cache s = .ok abc) (ch : Nat) :
    ch ∈ abc.key ↔ (abc.index.lookup ch).isSome = true := by
  obtain ⟨_, b1, b2, _, _⟩ := GetAlphabet_index s abc h
  constructor
  · intro hch
    obtain ⟨j, _, hl⟩ := b2 ch hch
    rw [hl]; rfl
  · intro hsome
    by_contra hch
    rw [b1 ch hch] at hsome
    cases hsome

theorem Decode_Loop_returns (s : List Nat) (abc : Alphabet)
    (h : GetAlphabet alphabet_cache s = .ok abc) (h1 : 1 ≤ s.length) (h256 : s.length ≤ 256)
    (text : List Nat) : ∃ r, (CodecId.Loop.NewCodec abc).Decode text = .ok r := by
  obtain ⟨_, _, _, hd, _⟩ := GetAlphabet_ok_cases s abc h
  obtain ⟨c, hc⟩ := codeDigits_Loop_ok abc abc.decode_direction
    (by rw [hd]; show 0 < 256; decide) (by rw [hd]; show 256 ≤ 256; decide)
    (by rw [hd]; exact logInt_nonneg _ h1 h256)
    (by rw [hd]; show 0 < logInt 256; decide) (abc.toDigits text)
  refine ⟨c.result, ?_⟩
  unfold Codec.Decode
  rw [NewCodec_abc, hc]

theorem toDigits_replace (abc : Alphabet) (hzero : abc.indexAt (abc.key.getD 0 0) = 0)
    (habsent : ∀ ch, ch ∉ abc.key → abc.index.lookup ch = none) (text : List Nat) :
    abc.toDigits (text.map (fun ch => if ch ∈ abc.key then ch else abc.key.getD 0 0)) =
      abc.toDigits text := by
  unfold Alphabet.toDigits
  rw [List.map_map]
  apply List.map_congr_left
  intro ch _
  by_cases hch : ch ∈ abc.key
  · simp [hch]
  · simp only [Function.comp, if_neg hch, hzero]
    unfold Alphabet.indexAt
    rw [habsent ch hch]
    rfl

/-! ### The caller's buffer -/

theorem repackWithBigInt_fromDigits (direction : CodecDirection)
    (fromDigits toBuffer : List Nat) (leadingZeros : Nat) (r : Repacked)
    (h : repackWithBigInt direction fromDigits toBuffer leadingZeros = .ok r) :
    r.fromDigits = fromDigits := by
  unfold repackWithBigInt at h
  split at h
  · cases h
  · cases h; rfl

theorem codeDigits_BigInt_digits (abc : Alphabet) (digits : List Nat)
    (direction : CodecDirection) (c : Coded)
    (h : (CodecId.BigInt.NewCodec abc).codeDigits digits direction = .ok c) :
    c.digits = digits := by
  unfold Codec.codeDigits at h
  split at h
  · cases h; rfl
  · dsimp only at h
    split at h
    · cases h
    · split at h
      · cases h
      · split at h
        · cases h
        · rename_i r hr
          have hf : r.fromDigits = digits := repackWithBigInt_fromDigits _ _ _ _ r hr
          split at h
          · cases h; exact hf
          · split at h
            · cases h
            · cases h; exact hf

theorem Encode_buffer (cid : CodecId) (abc : Alphabet) (b : List Nat) (r : Encoded)
    (h : (cid.NewCodec abc).Encode b = .ok r) : r.buffer = b := by
  cases cid
  · unfold Codec.Encode at h
    rw [NewCodec_cloneBuffer_Loop] at h
    simp only [Bool.not_true, Bool.false_eq_true, if_false] at h
    split at h
    · cases h
    · cases h; rfl
  · unfold Codec.Encode at h
    rw [NewCodec_cloneBuffer_BigInt] at h
    simp only [Bool.not_false, if_true] at h
    unfold Codec.encodeDigits at h
    split at h
    · cases h
    · rename_i c hc
      split at h
      · cases h
      · cases h
        exact codeDigits_BigInt_digits abc b _ c hc

theorem EncodeCheck_buffer (Sum256 : List Nat → List Nat) (cc : Codec) (b : List Nat)
    (r : Encoded) (h : cc.EncodeCheck Sum256 b = .ok r) : r.buffer = b := by
  simp only [Codec.EncodeCheck] at h
  split at h
  · cases h
  · cases h; rfl

/-! ### Texts and what they decode to -/

theorem chars_toDigits (abc : Alphabet) (hwf : abc.WellFormed) (text : List Nat)
    (htext : ∀ ch ∈ text, ch ∈ abc.key) : abc.chars (abc.toDigits text) = text := by
  obtain ⟨h2, hle, hnd, hascii, hinv, hidx, hef, het, hdf, hdt, hefl, hetl, hdfl, hdtl⟩ := hwf
  induction text with
  | nil => rfl
  | cons ch rest ih =>
    simp only [Alphabet.toDigits, Alphabet.chars, List.map_cons] at ih ⊢
    obtain ⟨i, hi, hi2⟩ := List.getElem_of_mem (htext ch (by simp))
    have hg : abc.key.getD i 0 = ch := by simp [List.getD_eq_getElem?_getD, hi, hi2]
    have hidx2 : abc.indexAt ch = i := by rw [← hg]; exact hinv i hi
    rw [hidx2, hg, ih (fun x hx => htext x (by simp [hx]))]

/-- A text over the alphabet is the encoding of what it decodes to, under every pair of
strategies, whenever the two size estimates suffice for its number. -/
theorem canonical_of_fit (abc : Alphabet) (hwf : abc.WellFormed) (text : List Nat)
    (htext : ∀ ch ∈ text, ch ∈ abc.key)
    (hfitD : valueOf abc.key.length
        ((abc.toDigits text).drop (countLeadingZeros (abc.toDigits text))) <
      256 ^ abc.decode_direction.estimate
        ((abc.toDigits text).length - countLeadingZeros (abc.toDigits text)))
    (hfitE : valueOf abc.key.length
        ((abc.toDigits text).drop (countLeadingZeros (abc.toDigits text))) <
      abc.key.length ^ abc.encode_direction.estimate
        ((abc.decoded text).length - countLeadingZeros (abc.toDigits text)))
    (s1 s2 : CodecId) :
    ∃ b r, (s1.NewCodec abc).Decode text = .ok b ∧ (s2.NewCodec abc).Encode b = .ok r ∧
      r.text = text := by
  have hlt := toDigits_lt abc hwf text
  have hwf2 := hwf
  obtain ⟨h2, hle, hnd, hascii, hinv, hidx, hef, het, hdf, hdt, hefl, hetl, hdfl, hdtl⟩ := hwf2
  have hD := Decode_eq_of_fit s1 abc hwf text hfitD
  have hfitD2 : valueOf abc.decode_direction.from_base
      ((abc.toDigits text).drop (countLeadingZeros (abc.toDigits text))) <
      abc.decode_direction.to_base ^ abc.decode_direction.estimate
        ((abc.toDigits text).length - countLeadingZeros (abc.toDigits text)) := by
    rw [hdf, hdt]; exact hfitD
  have hclz : countLeadingZeros (abc.decoded text) = countLeadingZeros (abc.toDigits text) :=
    (converted_eq_of_fit abc.decode_direction _ (abc.toDigits text)).1
  have hval : valueOf 256 ((abc.decoded text).drop (countLeadingZeros (abc.decoded text))) =
      valueOf abc.key.length
        ((abc.toDigits text).drop (countLeadingZeros (abc.toDigits text))) := by
    have := valueOf_converted abc.decode_direction _ (abc.toDigits text) hfitD2
    rw [hdt, hdf] at this
    exact this
  have hb : ∀ x ∈ abc.decoded text, x < 256 := fun x hx =>
    hdt ▸ converted_lt abc.decode_direction (by rw [hdt]; omega) _ (abc.toDigits text) x hx
  obtain ⟨r, hr, ht⟩ := Encode_eq_of_fit s2 abc hwf (abc.decoded text) hb
    (by rw [hval, hclz]; exact hfitE)
  refine ⟨_, r, hD, hr, ?_⟩
  rw [ht]
  have hcc : abc.encoded (abc.decoded text) = abc.toDigits text := by
    unfold Alphabet.encoded
    rw [hclz]
    exact converted_converted abc.decode_direction abc.encode_direction (by rw [hdf, het])
      (by rw [hdt, hef]) (by rw [het]; exact h2) (abc.toDigits text)
      (by rw [hdf]; exact hlt) _ _ hfitD2 (by rw [hdf, het]; exact hfitE)
  rw [hcc]
  exact chars_toDigits abc hwf text htext

theorem canonical_bounded (abc : Alphabet) (hwf : abc.WellFormed) (L B : Nat)
    (h1 : ∀ m, m ≤ L → abc.key.length ^ m ≤ 256 ^ abc.decode_direction.estimate m)
    (h2 : ∀ m, m ≤ L → abc.decode_direction.estimate m ≤ B)
    (h3 : ∀ n, n ≤ B → 256 ^ n ≤ abc.key.length ^ abc.encode_direction.estimate n)
    (text : List Nat) (htext : ∀ ch ∈ text, ch ∈ abc.key) (hlen : text.length ≤ L)
    (s1 s2 : CodecId) :
    ∃ b r, (s1.NewCodec abc).Decode text = .ok b ∧ (s2.NewCodec abc).Encode b = .ok r ∧
      r.text = text := by
  have hlt := toDigits_lt abc hwf text
  have hwf2 := hwf
  obtain ⟨h2', hle, hnd, hascii, hinv, hidx, hef, het, hdf, hdt, hefl, hetl, hdfl, hdtl⟩ := hwf2
  have hDlen : (abc.toDigits text).length = text.length := by simp [Alphabet.toDigits]
  have hV : valueOf abc.key.length
      ((abc.toDigits text).drop (countLeadingZeros (abc.toDigits text))) <
      abc.key.length ^ ((abc.toDigits text).length - countLeadingZeros (abc.toDigits text)) := by
    have := valueOf_lt_pow abc.key.length
      ((abc.toDigits text).drop (countLeadingZeros (abc.toDigits text)))
      (fun x hx => hlt x (List.mem_of_mem_drop hx))
    rwa [List.length_drop] at this
  have hfitD : valueOf abc.key.length
      ((abc.toDigits text).drop (countLeadingZeros (abc.toDigits text))) <
      256 ^ abc.decode_direction.estimate
        ((abc.toDigits text).length - countLeadingZeros (abc.toDigits text)) :=
    lt_of_lt_of_le hV (h1 _ (by omega))
  have hfitD2 : valueOf abc.decode_direction.from_base
      ((abc.toDigits text).drop (countLeadingZeros (abc.toDigits text))) <
      abc.decode_direction.to_base ^ abc.decode_direction.estimate
        ((abc.toDigits text).length - countLeadingZeros (abc.toDigits text)) := by
    rw [hdf, hdt]; exact hfitD
  obtain ⟨c1, c2, c3⟩ := converted_eq_of_fit abc.decode_direction
    (abc.decode_direction.estimate
      ((abc.toDigits text).length - countLeadingZeros (abc.toDigits text))) (abc.toDigits text)
  have hval := valueOf_converted abc.decode_direction _ (abc.toDigits text) hfitD2
  rw [c1, hdt, hdf] at hval
  have hltb := valueOf_lt_pow 256
    ((abc.decoded text).drop (countLeadingZeros (abc.toDigits text)))
    (fun x hx => hdt ▸ converted_lt abc.decode_direction (by rw [hdt]; omega) _
      (abc.toDigits text) x (List.mem_of_mem_drop hx))
  rw [List.length_drop] at hltb
  have hfitE : valueOf abc.key.length
      ((abc.toDigits text).drop (countLeadingZeros (abc.toDigits text))) <
      abc.key.length ^ abc.encode_direction.estimate
        ((abc.decoded text).length - countLeadingZeros (abc.toDigits text)) := by
    rw [← hval]
    exact lt_of_lt_of_le hltb (h3 _ (le_trans c3 (h2 _ (by omega))))
  exact canonical_of_fit abc hwf text htext hfitD hfitE s1 s2

theorem registry_decode_estimates (id : Int) (hid : id ∈ registryIds) :
    (∀ m, m ≤ 255 → (registryAlphabet id).key.length ^ m ≤
      256 ^ (registryAlphabet id).decode_direction.estimate m) ∧
    (∀ m, m ≤ 255 → (registryAlphabet id).decode_direction.estimate m ≤ 194) := by
  simp only [registryIds, List.mem_cons, List.mem_singleton, List.not_mem_nil, or_false] at hid
  rcases hid with rfl | rfl | rfl | rfl | rfl | rfl | rfl | rfl | rfl | rfl <;> decide!

/-- For every registry alphabet, every pair of strategies and every text of at most 255
characters of the alphabet, `Decode` returns and `Encode` of the result is the text. -/
theorem canonical_short (id : Int) (hid : id ∈ registryIds) (s1 s2 : CodecId)
    (text : List Nat) (htext : ∀ ch ∈ text, ch ∈ (registryAlphabet id).key)
    (hlen : text.length ≤ 255) :
    ∃ b r, (s1.NewCodec (registryAlphabet id)).Decode text = .ok b ∧
      (s2.NewCodec (registryAlphabet id)).Encode b = .ok r ∧ r.text = text := by
  obtain ⟨h1, h2⟩ := registry_decode_estimates id hid
  exact canonical_bounded _ (registryAlphabet_wellFormed id hid).2.1 255 194 h1 h2
    (registry_estimates id hid).1 text htext hlen s1 s2

/-- A text of 575 characters with a character outside the alphabet on which `Decode` of the
BigInt codec panics: the estimate for base 67 is 436 bytes where 437 are needed. -/
theorem Decode_BigInt_panics_base67 :
    32 ∉ (registryAlphabet 67).key ∧
    (CodecId.BigInt.NewCodec (registryAlphabet 67)).Decode (List.replicate 574 126 ++ [32]) =
      .error .indexOutOfRange := by
  decide!

/-! ### The claims -/

/-- Claim C1 (round trip), at a failing input: for the base-62 alphabet of the registry and
the 195 bytes `0xff`, the size estimate is 262 digits while the number needs 263. The Loop
codec returns a text of 261 characters, and `Decode` of that text, under either strategy, is
not the input; the BigInt codec panics in `Encode` with an index out of range. -/
theorem roundtrip_fails_base62 :
    GetAlphabetById alphabet_cache 62 = .ok (registryAlphabet 62) ∧
    ∃ t, (CodecId.Loop.NewCodec (registryAlphabet 62)).Encode (List.replicate 195 255) =
        .ok ⟨t, List.replicate 195 255⟩ ∧
      t.length = 261 ∧
      (CodecId.Loop.NewCodec (registryAlphabet 62)).Decode t ≠ .ok (List.replicate 195 255) ∧
      (CodecId.BigInt.NewCodec (registryAlphabet 62)).Decode t ≠ .ok (List.replicate 195 255) ∧
      (CodecId.BigInt.NewCodec (registryAlphabet 62)).Encode (List.replicate 195 255) =
        .error .indexOutOfRange := by
  obtain ⟨hget, hwf, _⟩ := registryAlphabet_wellFormed 62 (by decide)
  exact ⟨hget, _, Encode_Loop_eq _ hwf _ (mem_replicate_lt 195 255 256 (by decide)),
    by decide!,
    ne_ok_of_length _ 194 _ (Decode_length_base62 .Loop) (by simp),
    ne_ok_of_length _ 194 _ (Decode_length_base62 .BigInt) (by simp), by decide!⟩

/-- Claim C2 (interchangeable strategies), at a failing input: for the direction 256 -> 62,
the 195 digits `0xff`, no leading zero and the zero-initialised buffer of the estimated 262
digits, `repackWithLoop` returns while `repackWithBigInt` panics with an index out of range;
likewise `Encode` of the Loop codec returns a text and `Encode` of the BigInt codec panics. -/
theorem strategies_differ_base62 :
    (Direction 256 62).approximateSize 195 = .ok 262 ∧
    (∃ r, repackWithLoop (Direction 256 62) (List.replicate 195 255) (List.replicate 262 0) 0 =
      .ok r) ∧
    repackWithBigInt (Direction 256 62) (List.replicate 195 255) (List.replicate 262 0) 0 =
      .error .indexOutOfRange ∧
    (∃ r, (CodecId.Loop.NewCodec (registryAlphabet 62)).Encode (List.replicate 195 255) = .ok r) ∧
    (CodecId.BigInt.NewCodec (registryAlphabet 62)).Encode (List.replicate 195 255) =
      .error .indexOutOfRange := by
  obtain ⟨_, hwf, _⟩ := registryAlphabet_wellFormed 62 (by decide)
  obtain ⟨r, hr, _⟩ := repackWithLoop_trimmed (Direction 256 62) (by decide) (by decide)
    (List.replicate 195 255) 262 0
  exact ⟨by decide!, ⟨r, hr⟩, by decide!, Encode_Loop_ok _ hwf _, by decide!⟩

/-- Claim C3 (value preservation), at a failing input: for the direction 256 -> 62 and the 195
digits `0xff`, whose number is at least `62 ^ 262` while the estimate is 262 digits,
`codeDigits` of the Loop codec returns digits that denote the number less `62 ^ 262`, and
`codeDigits` of the BigInt codec panics with an index out of range. -/
theorem value_not_preserved_base62 :
    (Direction 256 62).approximateSize 195 = .ok 262 ∧
    62 ^ 262 ≤ valueOf 256 (List.replicate 195 255) ∧
    (∃ c, (CodecId.Loop.NewCodec (registryAlphabet 62)).codeDigits (List.replicate 195 255)
        (Direction 256 62) = .ok c ∧
      valueOf 62 c.result + 62 ^ 262 = valueOf 256 (List.replicate 195 255)) ∧
    (CodecId.BigInt.NewCodec (registryAlphabet 62)).codeDigits (List.replicate 195 255)
      (Direction 256 62) = .error .indexOutOfRange := by
  have hsz : (Direction 256 62).approximateSize
      ((List.replicate 195 255).length - countLeadingZeros (List.replicate 195 255)) =
      .ok 262 := by decide!
  obtain ⟨c, hc, hres⟩ := codeDigits_Loop_eq (registryAlphabet 62) (Direction 256 62)
    (by decide) (by decide) (by decide) (List.replicate 195 255)
    (mem_replicate_lt 195 255 256 (by decide)) (by decide) 262 hsz (by decide)
  refine ⟨by decide!, by decide!, ⟨c, hc, ?_⟩, by decide!⟩
  rw [hres]
  decide!

/-- Claim C4 (leading-zero preservation), as amended: for every registry alphabet, both
strategies and every byte sequence `b`, whenever `Encode b` returns a text (with the Loop
codec it always does), the text starts with exactly `countLeadingZeros b` copies of the
digit-0 character; and for every text made only of characters of the alphabet, whenever
`Decode` returns (with the Loop codec it always does), the result has exactly as many leading
zero bytes as the text has leading digit-0 characters. Base 58 encodes `[0x00, 0x01]` as the
characters `1` and `2`. -/
theorem leading_zeros_preserved (id : Int) (hid : id ∈ registryIds) (cid : CodecId)
    (b text : List Nat) (htext : ∀ ch ∈ text, ch ∈ (registryAlphabet id).key) :
    GetAlphabetById alphabet_cache id = .ok (registryAlphabet id) ∧
    (∀ r, (cid.NewCodec (registryAlphabet id)).Encode b = .ok r →
      leadingCount ((registryAlphabet id).key.getD 0 0) r.text = countLeadingZeros b) ∧
    (∃ r, (CodecId.Loop.NewCodec (registryAlphabet id)).Encode b = .ok r) ∧
    (∀ r, (cid.NewCodec (registryAlphabet id)).Decode text = .ok r →
      countLeadingZeros r = leadingCount ((registryAlphabet id).key.getD 0 0) text) ∧
    (∃ r, (CodecId.Loop.NewCodec (registryAlphabet id)).Decode text = .ok r) ∧
    (cid.NewCodec (registryAlphabet 58)).Encode [0, 1] = .ok ⟨[49, 50], [0, 1]⟩ := by
  obtain ⟨hget, hwf, _⟩ := registryAlphabet_wellFormed id hid
  refine ⟨hget, fun r h => Encode_leading cid _ hwf b r h, Encode_Loop_ok _ hwf b,
    fun r h => Decode_leading cid _ hwf text htext r h, Decode_Loop_ok _ hwf text, ?_⟩
  cases cid <;> decide!

/-- The statement of `leading_zeros_preserved` at base 58, the bytes `[0, 0, 1]` and the text
`112`. -/
theorem leading_zeros_preserved_witness :
    GetAlphabetById alphabet_cache 58 = .ok (registryAlphabet 58) ∧
    (∀ r, (CodecId.BigInt.NewCodec (registryAlphabet 58)).Encode [0, 0, 1] = .ok r →
      leadingCount ((registryAlphabet 58).key.getD 0 0) r.text = countLeadingZeros [0, 0, 1]) ∧
    (∃ r, (CodecId.Loop.NewCodec (registryAlphabet 58)).Encode [0, 0, 1] = .ok r) ∧
    (∀ r, (CodecId.BigInt.NewCodec (registryAlphabet 58)).Decode [49, 49, 50] = .ok r →
      countLeadingZeros r = leadingCount ((registryAlphabet 58).key.getD 0 0) [49, 49, 50]) ∧
    (∃ r, (CodecId.Loop.NewCodec (registryAlphabet 58)).Decode [49, 49, 50] = .ok r) ∧
    (CodecId.BigInt.NewCodec (registryAlphabet 58)).Encode [0, 1] = .ok ⟨[49, 50], [0, 1]⟩ :=
  leading_zeros_preserved 58 (by decide) .BigInt [0, 0, 1] [49, 49, 50] (by decide!)

/-- Claim C4 as stated fails on a text with a character outside the alphabet: in base 58 the
text `10` starts with exactly one digit-0 character (`1`), and `0` is not in the alphabet, yet
both codecs decode it to two zero bytes. -/
theorem leading_zeros_foreign_character :
    leadingCount ((registryAlphabet 58).key.getD 0 0) [49, 48] = 1 ∧
    (CodecId.Loop.NewCodec (registryAlphabet 58)).Decode [49, 48] = .ok [0, 0] ∧
    (CodecId.BigInt.NewCodec (registryAlphabet 58)).Decode [49, 48] = .ok [0, 0] ∧
    countLeadingZeros [0, 0] = 2 := by
  decide!

/-- Claim C5 (checksum round trip), at a failing input: for the base-62 alphabet and the 191
bytes `0xff`, `EncodeCheck` of the BigInt codec panics with an index out of range whatever the
hash function is; and with the hash whose digests are 32 bytes `0xff`, `EncodeCheck` of the
Loop codec returns a text that `DecodeCheck`, under either strategy, does not turn back into
the input. -/
theorem checksum_roundtrip_fails_base62 (Sum256 : List Nat → List Nat) :
    (CodecId.BigInt.NewCodec (registryAlphabet 62)).EncodeCheck Sum256 (List.replicate 191 255) =
      .error .indexOutOfRange ∧
    ∃ t, (CodecId.Loop.NewCodec (registryAlphabet 62)).EncodeCheck
        (fun _ => List.replicate 32 255) (List.replicate 191 255) =
        .ok ⟨t, List.replicate 191 255⟩ ∧
      (CodecId.Loop.NewCodec (registryAlphabet 62)).DecodeCheck
        (fun _ => List.replicate 32 255) t ≠ .ok (.ok (List.replicate 191 255)) ∧
      (CodecId.BigInt.NewCodec (registryAlphabet 62)).DecodeCheck
        (fun _ => List.replicate 32 255) t ≠ .ok (.ok (List.replicate 191 255)) := by
  obtain ⟨_, hwf, _⟩ := registryAlphabet_wellFormed 62 (by decide)
  have hbuf : List.replicate 191 255 ++
      (sha256x2 (fun _ => List.replicate 32 255) (List.replicate 191 255)).take 4 =
      List.replicate 195 255 := by decide
  have hE := EncodeCheck_Loop_eq _ hwf (fun _ => List.replicate 32 255)
    (fun _ => List.length_replicate _ _) (fun _ => mem_replicate_lt 32 255 256 (by decide))
    _ (mem_replicate_lt 191 255 256 (by decide))
  rw [hbuf] at hE
  exact ⟨EncodeCheck_BigInt_overflow Sum256, _, hE,
    DecodeCheck_ne_of_length _ _ _ _ 194 (Decode_length_base62 .Loop) (by simp),
    DecodeCheck_ne_of_length _ _ _ _ 194 (Decode_length_base62 .BigInt) (by simp)⟩

/-- Claim C6 (outcome of `DecodeCheck`), at a failing input: for every codec and every hash
function, the empty text decodes to the empty buffer and `DecodeCheck` then panics at the
slice `buffer[:payloadLen]` with `payloadLen = -4`, returning neither the checksum error nor a
payload; the same happens for the base-58 text `2`, which decodes to the single byte 1. -/
theorem DecodeCheck_short_text (Sum256 : List Nat → List Nat) (cc : Codec) :
    cc.Decode [] = .ok [] ∧ cc.DecodeCheck Sum256 [] = .error .sliceBounds ∧
    (CodecId.Loop.NewCodec (registryAlphabet 58)).Decode [50] = .ok [1] ∧
    (CodecId.Loop.NewCodec (registryAlphabet 58)).DecodeCheck Sum256 [50] = .error .sliceBounds ∧
    (CodecId.BigInt.NewCodec (registryAlphabet 58)).DecodeCheck Sum256 [50] =
      .error .sliceBounds := by
  have h1 : (CodecId.Loop.NewCodec (registryAlphabet 58)).Decode [50] = .ok [1] := by decide!
  have h2 : (CodecId.BigInt.NewCodec (registryAlphabet 58)).Decode [50] = .ok [1] := by decide!
  exact ⟨Decode_nil cc, by simp [Codec.DecodeCheck, Decode_nil cc], h1,
    by simp [Codec.DecodeCheck, h1], by simp [Codec.DecodeCheck, h2]⟩

/-- Claim C7 (checksummed wire format): for every codec, every byte sequence `b` and every
hash function with 32-byte digests, the two `CopyBytes` calls build `b ++ c`, of length
`len b + 4`, where `c` is the first 4 bytes of `sha256x2 b`; `EncodeCheck b` returns the same
text as `Encode (b ++ c)`, or panics as it does; and the caller's buffer holds `b` after the
call. -/
theorem EncodeCheck_wire_format (Sum256 : List Nat → List Nat)
    (hlen : ∀ d, (Sum256 d).length = 32) (cc : Codec) (b : List Nat) :
    CopyBytes (sha256x2 Sum256 b) (CopyBytes b (List.replicate (b.length + 4) 0) 0) b.length =
      b ++ (sha256x2 Sum256 b).take 4 ∧
    (b ++ (sha256x2 Sum256 b).take 4).length = b.length + 4 ∧
    (cc.EncodeCheck Sum256 b).map Encoded.text =
      (cc.Encode (b ++ (sha256x2 Sum256 b).take 4)).map Encoded.text ∧
    ∀ r, cc.EncodeCheck Sum256 b = .ok r → r.buffer = b := by
  have hsha : (sha256x2 Sum256 b).length = 32 := hlen _
  have hcopy := CopyBytes_check b (sha256x2 Sum256 b) (by omega)
  refine ⟨hcopy, by simp [hsha], ?_, ?_⟩
  · simp only [Codec.EncodeCheck, hcopy, Codec.Encode]
    cases hc : cc.cloneBuffer
    · simp only [Bool.not_false, if_true]
      cases cc.encodeDigits (b ++ (sha256x2 Sum256 b).take 4) <;> rfl
    · simp only [Bool.not_true, Bool.false_eq_true, if_false, CopyBytes_clone]
      cases cc.encodeDigits (b ++ (sha256x2 Sum256 b).take 4) <;> rfl
  · intro r hr
    simp only [Codec.EncodeCheck] at hr
    split at hr
    · cases hr
    · cases hr; rfl

/-- The statement of `EncodeCheck_wire_format` for the Loop codec of base 58, the bytes
`[1, 2, 3]` and the hash whose digests are 32 bytes of value 7. -/
theorem EncodeCheck_wire_format_witness :
    CopyBytes (sha256x2 (fun _ => List.replicate 32 7) [1, 2, 3])
        (CopyBytes [1, 2, 3] (List.replicate ([1, 2, 3].length + 4) 0) 0) [1, 2, 3].length =
      [1, 2, 3] ++ (sha256x2 (fun _ => List.replicate 32 7) [1, 2, 3]).take 4 ∧
    ([1, 2, 3] ++ (sha256x2 (fun _ => List.replicate 32 7) [1, 2, 3]).take 4).length =
      [1, 2, 3].length + 4 ∧
    ((CodecId.Loop.NewCodec (registryAlphabet 58)).EncodeCheck (fun _ => List.replicate 32 7)
        [1, 2, 3]).map Encoded.text =
      ((CodecId.Loop.NewCodec (registryAlphabet 58)).Encode
        ([1, 2, 3] ++ (sha256x2 (fun _ => List.replicate 32 7) [1, 2, 3]).take 4)).map
        Encoded.text ∧
    ∀ r, (CodecId.Loop.NewCodec (registryAlphabet 58)).EncodeCheck (fun _ => List.replicate 32 7)
        [1, 2, 3] = .ok r → r.buffer = [1, 2, 3] :=
  EncodeCheck_wire_format (fun _ => List.replicate 32 7) (fun _ => by simp)
    (CodecId.Loop.NewCodec (registryAlphabet 58)) [1, 2, 3]

/-- Claim C9 (empty input): for every codec, `Encode` of the empty byte sequence is the empty
text, `Decode` of the empty text is the empty byte sequence, and `codeDigits` returns an empty
input as it is, for every direction and whatever the strategy does. -/
theorem empty_input (cc : Codec) :
    cc.Encode [] = .ok ⟨[], []⟩ ∧ cc.Decode [] = .ok [] ∧
    ∀ direction, cc.codeDigits [] direction = .ok ⟨[], []⟩ := by
  have h : ∀ direction, cc.codeDigits [] direction = .ok ⟨[], []⟩ := by
    intro direction; simp [Codec.codeDigits]
  refine ⟨?_, Decode_nil cc, h⟩
  cases hc : cc.cloneBuffer <;>
    simp [Codec.Encode, hc, Codec.encodeDigits, h, Alphabet.toChars, CopyBytes, CopyBytes.loop]

/-- Claim C10 (registry well-formedness): for every id of the registry, `GetAlphabetById id`
succeeds with an alphabet whose key has `id` characters, all distinct and all below 128, whose
directions are `Direction 256 id` and `Direction id 256`, and whose index inverts the key. -/
theorem registry_well_formed (id : Int) (hid : id ∈ registryIds) :
    ∃ abc, GetAlphabetById alphabet_cache id = .ok abc ∧
      (abc.key.length : Int) = id ∧ abc.key.Nodup ∧ (∀ ch ∈ abc.key, ch < 128) ∧
      abc.encode_direction = Direction 256 abc.key.length ∧
      abc.decode_direction = Direction abc.key.length 256 ∧
      ∀ i, i < abc.key.length → abc.indexAt (abc.key.getD i 0) = i :=
  ⟨registryAlphabet id, registryAlphabet_facts id hid⟩

/-- The statement of `registry_well_formed` at id 58. -/
theorem registry_well_formed_witness :
    ∃ abc, GetAlphabetById alphabet_cache 58 = .ok abc ∧
      (abc.key.length : Int) = 58 ∧ abc.key.Nodup ∧ (∀ ch ∈ abc.key, ch < 128) ∧
      abc.encode_direction = Direction 256 abc.key.length ∧
      abc.decode_direction = Direction abc.key.length 256 ∧
      ∀ i, i < abc.key.length → abc.indexAt (abc.key.getD i 0) = i :=
  registry_well_formed 58 (by decide)

/-- Claim C11 (alphabet caching), at a failing input: with the cache as explicit state,
`GetAlphabet "01"` succeeds from the initial cache, and the cache afterwards, as after every
call, is what it was before: the empty map. It has no entry for the string, so a second call
does not find the alphabet in the cache and builds it once more. -/
theorem cache_never_filled :
    GetAlphabet alphabet_cache (asciiBytes "01") = .ok (registryAlphabet 2) ∧
    (GetAlphabet.cacheAfter alphabet_cache (asciiBytes "01")).lookup (asciiBytes "01") = none ∧
    (∀ cache s, GetAlphabet.cacheAfter cache s = cache) ∧
    (∀ s, (GetAlphabet.cacheAfter alphabet_cache s).lookup s = none) ∧
    GetAlphabet (GetAlphabet.cacheAfter alphabet_cache (asciiBytes "01")) (asciiBytes "01") =
      GetAlphabet alphabet_cache (asciiBytes "01") :=
  ⟨by decide, rfl, fun _ _ => rfl, fun _ => rfl, rfl⟩

/-- Claim C12 (the buffer estimate never under-allocates), at a failing input: for the encode
direction 256 -> 62 of the base-62 registry alphabet and the input length 195,
`approximateSize` returns 262 although `62 ^ 262 < 256 ^ 195`, and the 195 digits `0xff`
denote a number of 263 digits. The estimate decides the converted result: `codeDigits` of the
Loop codec returns the 262 least significant digits, which denote another number, where a
buffer of 263 digits holds the digits of the number itself. -/
theorem approximateSize_under_allocates :
    (registryAlphabet 62).encode_direction = Direction 256 62 ∧
    (Direction 256 62).from_log = 55451 ∧ (Direction 256 62).to_log = 41271 ∧
    (Direction 256 62).approximateSize 195 = .ok 262 ∧
    62 ^ 262 < 256 ^ 195 ∧
    62 ^ 262 ≤ valueOf 256 (List.replicate 195 255) ∧
    (∃ c, (CodecId.Loop.NewCodec (registryAlphabet 62)).codeDigits (List.replicate 195 255)
        (Direction 256 62) = .ok c ∧
      c.result = converted (Direction 256 62) 262 (List.replicate 195 255) ∧
      valueOf 62 c.result ≠ valueOf 256 (List.replicate 195 255)) ∧
    valueOf 62 (converted (Direction 256 62) 263 (List.replicate 195 255)) =
      valueOf 256 (List.replicate 195 255) := by
  have hsz : (Direction 256 62).approximateSize
      ((List.replicate 195 255).length - countLeadingZeros (List.replicate 195 255)) =
      .ok 262 := by decide!
  obtain ⟨c, hc, hres⟩ := codeDigits_Loop_eq (registryAlphabet 62) (Direction 256 62)
    (by decide) (by decide) (by decide) (List.replicate 195 255)
    (mem_replicate_lt 195 255 256 (by decide)) (by decide) 262 hsz (by decide)
  refine ⟨by decide!, by decide!, by decide!, by decide!, by decide!, by decide!,
    ⟨c, hc, hres, ?_⟩, by decide!⟩
  rw [hres]
  decide!

/-- Claim C14 (alphabet index invariant), as amended: for every string `s` in which no
character occurs twice, the alphabet that `GetAlphabet s` returns without error has the key
`s`, its index holds the characters of the key and no other, `index[key[i]] = i` for every
`i` below the base, every digit value of a character of the key is below the base, and two
characters of the key with the same digit value are equal. -/
theorem index_inverts_key (s : List Nat) (hn : s.Nodup) (abc : Alphabet)
    (h : GetAlphabet alphabet_cache s = .ok abc) :
    abc.key = s ∧
    (∀ i, i < abc.key.length → abc.indexAt (abc.key.getD i 0) = i) ∧
    (∀ ch, ch ∈ abc.key ↔ (abc.index.lookup ch).isSome = true) ∧
    (∀ ch ∈ abc.key, abc.indexAt ch < abc.key.length) ∧
    (∀ c1 ∈ abc.key, ∀ c2 ∈ abc.key, abc.indexAt c1 = abc.indexAt c2 → c1 = c2) := by
  obtain ⟨hall, hkey, _, _, _⟩ := GetAlphabet_ok_cases s abc h
  obtain ⟨_, b1, b2, b3, b4⟩ := GetAlphabet_index s abc h
  have hlen : abc.key.length ≤ 128 := by
    rw [hkey]; exact length_le_of_nodup_lt s 128 hn hall
  have hinv : ∀ i, i < abc.key.length → abc.indexAt (abc.key.getD i 0) = i := by
    intro i hi
    rw [b3 i hi (getD_not_mem_drop abc.key (hkey ▸ hn) i hi)]
    exact Nat.mod_eq_of_lt (by omega)
  have hpos : ∀ ch ∈ abc.key, ∃ i, i < abc.key.length ∧ abc.key.getD i 0 = ch := by
    intro ch hch
    obtain ⟨i, hi, hi2⟩ := List.getElem_of_mem hch
    exact ⟨i, hi, by simp [List.getD_eq_getElem?_getD, hi, hi2]⟩
  refine ⟨hkey, hinv, index_isSome s abc h, ?_, ?_⟩
  · intro ch hch
    obtain ⟨i, hi, hi2⟩ := hpos ch hch
    rw [← hi2, hinv i hi]
    exact hi
  · intro c1 h1 c2 h2 heq
    obtain ⟨i, hi, hi2⟩ := hpos c1 h1
    obtain ⟨j, hj, hj2⟩ := hpos c2 h2
    rw [← hi2, ← hj2, hinv i hi, hinv j hj] at heq
    rw [← hi2, ← hj2, heq]

/-- The statement of `index_inverts_key` at the string `abc`, for which `GetAlphabet` returns
the index that maps `a`, `b`, `c` to 0, 1, 2. -/
theorem index_inverts_key_witness :
    ∃ abc, GetAlphabet alphabet_cache [97, 98, 99] = .ok abc ∧
      abc.index = [(99, 2), (98, 1), (97, 0)] ∧
      abc.key = [97, 98, 99] ∧
      (∀ i, i < abc.key.length → abc.indexAt (abc.key.getD i 0) = i) ∧
      (∀ ch, ch ∈ abc.key ↔ (abc.index.lookup ch).isSome = true) ∧
      (∀ ch ∈ abc.key, abc.indexAt ch < abc.key.length) ∧
      (∀ c1 ∈ abc.key, ∀ c2 ∈ abc.key, abc.indexAt c1 = abc.indexAt c2 → c1 = c2) :=
  ⟨_, rfl, rfl, index_inverts_key [97, 98, 99] (by decide) _ rfl⟩

/-- Claim C14 as stated fails on a string with a repeated character: `GetAlphabet "aa"`
returns without error an alphabet whose key holds `a` twice and whose index maps `a` to 1, so
that `index[key[0]]` is 1 and not 0. -/
theorem index_repeated_character :
    ∃ abc, GetAlphabet alphabet_cache [97, 97] = .ok abc ∧ abc.key = [97, 97] ∧
      abc.index.lookup 97 = some 1 ∧ abc.indexAt (abc.key.getD 0 0) = 1 ∧ ¬ abc.key.Nodup :=
  ⟨_, rfl, by decide⟩

/-- Claim C15 (unknown characters decode as digit 0), as amended: for every alphabet that
`GetAlphabet` returns and every text, `toDigits` returns one digit per character, the digit
`index[text[i]]` for a character of the key and 0 for any other character, which the index
does not hold. If the alphabet string is not empty and no character occurs twice in it, then
`Decode` of the Loop codec returns for every text, and `Decode` of either codec has the same
outcome for a text as for the text with every character outside the key replaced by the
digit-0 character `key[0]`. -/
theorem unknown_characters_are_zero (s : List Nat) (abc : Alphabet)
    (h : GetAlphabet alphabet_cache s = .ok abc) (cid : CodecId) (text : List Nat) :
    (abc.toDigits text).length = text.length ∧
    (∀ i, i < text.length → (abc.toDigits text).getD i 0 =
      match abc.index.lookup (text.getD i 0) with
      | some digit => digit
      | none => 0) ∧
    (∀ ch, ch ∈ abc.key ↔ (abc.index.lookup ch).isSome = true) ∧
    (s ≠ [] → s.Nodup →
      (∃ r, (CodecId.Loop.NewCodec abc).Decode text = .ok r) ∧
      (cid.NewCodec abc).Decode text = (cid.NewCodec abc).Decode
        (text.map (fun ch => if ch ∈ abc.key then ch else abc.key.getD 0 0))) := by
  obtain ⟨hall, hkey, _, _, _⟩ := GetAlphabet_ok_cases s abc h
  obtain ⟨_, b1, b2, b3, b4⟩ := GetAlphabet_index s abc h
  refine ⟨by simp [Alphabet.toDigits], ?_, index_isSome s abc h, ?_⟩
  · intro i hi
    have : (abc.toDigits text).getD i 0 = abc.indexAt (text.getD i 0) := by
      simp [Alphabet.toDigits, List.getD_eq_getElem?_getD, hi]
    rw [this]
    unfold Alphabet.indexAt
    cases abc.index.lookup (text.getD i 0) <;> rfl
  · intro hne hn
    have hlen : s.length ≤ 128 := length_le_of_nodup_lt s 128 hn hall
    have hpos : 0 < s.length := List.length_pos.mpr hne
    have hzero : abc.indexAt (abc.key.getD 0 0) = 0 := by
      rw [b3 0 (by rw [hkey]; exact hpos)
        (getD_not_mem_drop abc.key (hkey ▸ hn) 0 (by rw [hkey]; exact hpos))]
    refine ⟨Decode_Loop_returns s abc h hpos (by omega) text, ?_⟩
    unfold Codec.Decode
    rw [NewCodec_abc, toDigits_replace abc hzero b1 text]

/-- The statement of `unknown_characters_are_zero` at the base-58 alphabet, the BigInt codec
and the text `213`, read next to the text `203` whose character `0` is not in the alphabet:
both decode to the bytes `[0x0d, 0x26]`. -/
theorem unknown_characters_are_zero_witness :
    GetAlphabet alphabet_cache (AlphabetsAt 58) = .ok (registryAlphabet 58) ∧
    48 ∉ (registryAlphabet 58).key ∧
    (registryAlphabet 58).toDigits [50, 48, 51] = [1, 0, 2] ∧
    (∀ i, i < [50, 48, 51].length → ((registryAlphabet 58).toDigits [50, 48, 51]).getD i 0 =
      match (registryAlphabet 58).index.lookup ([50, 48, 51].getD i 0) with
      | some digit => digit
      | none => 0) ∧
    (∃ r, (CodecId.Loop.NewCodec (registryAlphabet 58)).Decode [50, 48, 51] = .ok r) ∧
    (CodecId.BigInt.NewCodec (registryAlphabet 58)).Decode [50, 48, 51] =
      (CodecId.BigInt.NewCodec (registryAlphabet 58)).Decode
        ([50, 48, 51].map (fun ch =>
          if ch ∈ (registryAlphabet 58).key then ch else (registryAlphabet 58).key.getD 0 0)) ∧
    (CodecId.BigInt.NewCodec (registryAlphabet 58)).Decode [50, 48, 51] = .ok [13, 38] :=
  ⟨by decide, by decide, by decide,
    (unknown_characters_are_zero (AlphabetsAt 58) (registryAlphabet 58) (by decide) .BigInt
      [50, 48, 51]).2.1,
    ((unknown_characters_are_zero (AlphabetsAt 58) (registryAlphabet 58) (by decide) .BigInt
      [50, 48, 51]).2.2.2 (by decide) (by decide)).1,
    ((unknown_characters_are_zero (AlphabetsAt 58) (registryAlphabet 58) (by decide) .BigInt
      [50, 48, 51]).2.2.2 (by decide) (by decide)).2, by decide⟩

/-- Claim C15 as stated fails for an alphabet whose first character occurs again:
`GetAlphabet "aa"` returns an alphabet with the digit-0 character `a`, which `Encode` writes
for the byte 0; `b` is not in the alphabet and the text `b` decodes to the byte 0, but the
text `a`, in which the digit-0 character stands for it, decodes to the byte 1. -/
theorem unknown_character_repeated_first :
    ∃ abc, GetAlphabet alphabet_cache [97, 97] = .ok abc ∧ 98 ∉ abc.key ∧
      abc.key.getD 0 0 = 97 ∧
      (∀ cid : CodecId, (cid.NewCodec abc).Encode [0] = .ok ⟨[97], [0]⟩ ∧
        (cid.NewCodec abc).Decode [98] = .ok [0] ∧
        (cid.NewCodec abc).Decode [97] = .ok [1]) :=
  ⟨_, rfl, by decide, by decide, fun cid => by cases cid <;> decide⟩

/-- Claim C16 (caller's buffer untouched): for both strategies, every alphabet, every hash
function and every byte sequence `b`, the buffer holds `b` after `Encode b` and after
`EncodeCheck b`. The Loop codec hands a copy of `b` to its strategy, which overwrites the
array it is given (dividing `[1]` leaves `[0]`), and `repackWithBigInt`, which the BigInt
codec is given the buffer itself for, returns with its input digit array as it was. Base 58
encodes `[0, 1, 2]` to `15T` under both strategies and leaves the buffer as it was. -/
theorem buffer_untouched (cid : CodecId) (abc : Alphabet) (Sum256 : List Nat → List Nat)
    (b : List Nat) :
    (∀ r, (cid.NewCodec abc).Encode b = .ok r → r.buffer = b) ∧
    (∀ r, (cid.NewCodec abc).EncodeCheck Sum256 b = .ok r → r.buffer = b) ∧
    (CodecId.Loop.NewCodec abc).cloneBuffer = true ∧
    CopyBytes b (List.replicate b.length 0) 0 = b ∧
    (CodecId.BigInt.NewCodec abc).cloneBuffer = false ∧
    (∀ direction fromDigits toBuffer leadingZeros rp,
      (CodecId.BigInt.NewCodec abc).repackDigits direction fromDigits toBuffer leadingZeros
        = .ok rp → rp.fromDigits = fromDigits) ∧
    (CodecId.Loop.NewCodec abc).repackDigits (Direction 256 58) [1] [0, 0] 0 =
      .ok ⟨[0], [0, 1], 1⟩ ∧
    (cid.NewCodec (registryAlphabet 58)).Encode [0, 1, 2] = .ok ⟨[49, 53, 84], [0, 1, 2]⟩ ∧
    (cid.NewCodec (registryAlphabet 58)).EncodeCheck (fun _ => List.replicate 32 7) [0, 1, 2] =
      .ok ⟨[49, 87, 55, 83, 90, 82, 104, 56], [0, 1, 2]⟩ :=
  ⟨fun r h => Encode_buffer cid abc b r h, fun r h => EncodeCheck_buffer Sum256 _ b r h, rfl,
    CopyBytes_clone b, rfl,
    fun direction fromDigits toBuffer leadingZeros rp hrp =>
      repackWithBigInt_fromDigits direction fromDigits toBuffer leadingZeros rp hrp,
    show repackWithLoop (Direction 256 58) [1] [0, 0] 0 = .ok ⟨[0], [0, 1], 1⟩ by decide,
    by cases cid <;> decide!, by cases cid <;> decide!⟩

/-- Claim C18 (canonical encoding), at a failing input: the text `s` of 263 characters of the
base-62 registry alphabet that writes the number `256 ^ 195 - 1` decodes, under either
strategy, to the 195 bytes `0xff`; `Encode` of these bytes returns a text of 261 characters
with the Loop codec and panics with an index out of range with the BigInt codec, so neither
returns `s`. -/
theorem canonical_encoding_fails_base62 :
    ∃ s, s = (registryAlphabet 62).chars (digitsOf 62 263 (256 ^ 195 - 1)) ∧
      s.length = 263 ∧ (∀ ch ∈ s, ch ∈ (registryAlphabet 62).key) ∧
      (∀ cid : CodecId,
        (cid.NewCodec (registryAlphabet 62)).Decode s = .ok (List.replicate 195 255)) ∧
      (∃ t, (CodecId.Loop.NewCodec (registryAlphabet 62)).Encode (List.replicate 195 255) =
          .ok ⟨t, List.replicate 195 255⟩ ∧ t.length = 261 ∧ t ≠ s) ∧
      (CodecId.BigInt.NewCodec (registryAlphabet 62)).Encode (List.replicate 195 255) =
        .error .indexOutOfRange := by
  obtain ⟨_, hwf, _⟩ := registryAlphabet_wellFormed 62 (by decide)
  have hlen : ((registryAlphabet 62).chars (digitsOf 62 263 (256 ^ 195 - 1))).length = 263 := by
    decide!
  have hdec : ∀ cid : CodecId, (cid.NewCodec (registryAlphabet 62)).Decode
      ((registryAlphabet 62).chars (digitsOf 62 263 (256 ^ 195 - 1))) =
      .ok (List.replicate 195 255) := by
    intro cid
    rw [Decode_eq_of_fit cid _ hwf _ (by decide!)]
    decide!
  have ht : ((registryAlphabet 62).chars ((registryAlphabet 62).encoded
      (List.replicate 195 255))).length = 261 := by decide!
  refine ⟨_, rfl, hlen, by decide!, hdec,
    ⟨_, Encode_Loop_eq _ hwf _ (mem_replicate_lt 195 255 256 (by decide)), ht, ?_⟩, by decide!⟩
  intro heq
  rw [heq, hlen] at ht
  omega

/-- Claim C19 (output digits and writes are in range), at a failing input: for the direction
256 -> 62, the digit 0 followed by the 195 digits `0xff`, one leading zero and the
zero-initialised buffer of `1 + 262` digits that `codeDigits` allocates, `repackWithBigInt`
writes the digit 1 at index 0, which is below `leadingZeros`, and returns 0, so that
`codeDigits` and `Encode` panic on the slice `out[-1:]`; without the leading zero the same
write is at index -1 of the buffer of 262 digits and panics. -/
theorem write_outside_buffer_base62 :
    (Direction 256 62).approximateSize 195 = .ok 262 ∧
    countLeadingZeros (0 :: List.replicate 195 255) = 1 ∧
    (∃ r, repackWithBigInt (Direction 256 62) (0 :: List.replicate 195 255)
        (List.replicate 263 0) 1 = .ok r ∧
      r.toBuffer.getD 0 0 = 1 ∧ r.firstNonZero = 0) ∧
    (CodecId.BigInt.NewCodec (registryAlphabet 62)).codeDigits (0 :: List.replicate 195 255)
      (Direction 256 62) = .error .sliceBounds ∧
    (CodecId.BigInt.NewCodec (registryAlphabet 62)).Encode (0 :: List.replicate 195 255) =
      .error .sliceBounds ∧
    repackWithBigInt (Direction 256 62) (List.replicate 195 255) (List.replicate 262 0) 0 =
      .error .indexOutOfRange := by
  refine ⟨by decide!, by decide!, ⟨_, rfl, by decide!, by decide!⟩, by decide!, by decide!,
    by decide!⟩

/-- Claim C20 (unknown registry id): for every id that is not a key of the registry,
`Alphabets[id]` is the empty string, so `GetAlphabetById id` is `GetAlphabet ""`, whatever the
cache holds; with the cache of the package it returns no error but the alphabet with an empty
key, an empty index, base 0 and the directions 256 -> 0 and 0 -> 256. -/
theorem unknown_registry_id (id : Int) (hid : id ∉ registryIds) :
    AlphabetsAt id = [] ∧
    (∀ cache, GetAlphabetById cache id = GetAlphabet cache []) ∧
    GetAlphabetById alphabet_cache id =
      .ok { key := [], index := [], encode_direction := Direction 256 0,
            decode_direction := Direction 0 256 } ∧
    (∀ abc, GetAlphabetById alphabet_cache id = .ok abc →
      abc.key.length = 0 ∧ abc.index = [] ∧
      abc.encode_direction.from_base = 256 ∧ abc.encode_direction.to_base = 0 ∧
      abc.decode_direction.from_base = 0 ∧ abc.decode_direction.to_base = 256) := by
  have h := Alphabets_lookup_none id hid
  have h2 : GetAlphabetById alphabet_cache id =
      .ok { key := [], index := [], encode_direction := Direction 256 0,
            decode_direction := Direction 0 256 } := by
    unfold GetAlphabetById; rw [h]; rfl
  refine ⟨h, fun cache => by unfold GetAlphabetById; rw [h], h2, ?_⟩
  intro abc habc
  rw [h2] at habc
  cases habc
  exact ⟨rfl, rfl, rfl, rfl, rfl, rfl⟩

/-- The statement of `unknown_registry_id` at the id 7. -/
theorem unknown_registry_id_witness :
    AlphabetsAt 7 = [] ∧
    (∀ cache, GetAlphabetById cache 7 = GetAlphabet cache []) ∧
    GetAlphabetById alphabet_cache 7 =
      .ok { key := [], index := [], encode_direction := Direction 256 0,
            decode_direction := Direction 0 256 } ∧
    (∀ abc, GetAlphabetById alphabet_cache 7 = .ok abc →
      abc.key.length = 0 ∧ abc.index = [] ∧
      abc.encode_direction.from_base = 256 ∧ abc.encode_direction.to_base = 0 ∧
      abc.decode_direction.from_base = 0 ∧ abc.decode_direction.to_base = 256) :=
  unknown_registry_id 7 (by decide)

end BaseN
